import Mathlib

/-!
# Scriberr transcription pipeline — verification of the core algorithms

A shallow embedding of the Go sources of the Scriberr long-audio
transcription pipeline, together with theorems about the embedded code.

Embedding conventions:
* Go `float64` values (timestamps, durations, confidences) are embedded as `ℚ`.
* Go `*string` pointers are embedded as `Option String` (`nil` ↦ `none`).
* Go `map[string]string` is embedded as an association list with
  insert-overwrite semantics.
* Go string helpers (`strings.Contains`, `strings.HasPrefix`, …) are embedded
  as character-list operations, which agree with Go's byte-level operations on
  the ASCII data handled here.
* External effects (HTTP attempts, `ffmpeg`/`ffprobe` runs, directory
  listings, the LLM's replies) are passed in as explicit oracle arguments, so
  every function is pure and executable.
-/

namespace Scriberr

/-! ## Character-level models of the Go `strings` helpers -/

/-- Embeds `strings.Contains(s, sub)`. -/
def strContains (s sub : String) : Bool :=
  decide (sub.toList <:+: s.toList)

/-- Embeds `strings.HasPrefix(s, pre)`. -/
def strHasStart (s pre : String) : Bool :=
  decide (pre.toList <+: s.toList)

/-- Embeds `strings.HasSuffix(s, suf)`. -/
def strHasEnd (s suf : String) : Bool :=
  decide (suf.toList <:+ s.toList)

/-- Embeds `strings.TrimPrefix(s, pre)`: drops `pre` from the front when it is
present, otherwise returns `s` unchanged. -/
def strTrimStart (s pre : String) : String :=
  if strHasStart s pre then (s.toList.drop pre.toList.length).asString else s

/-- Embeds `strings.TrimSuffix(s, suf)`. -/
def strTrimEnd (s suf : String) : String :=
  if strHasEnd s suf then (s.toList.take (s.toList.length - suf.toList.length)).asString else s

/-- Embeds `strings.TrimSpace(s)` (leading and trailing whitespace removed). -/
def strTrimSpace (s : String) : String :=
  (((s.toList.dropWhile Char.isWhitespace).reverse.dropWhile Char.isWhitespace).reverse).asString

/-! ## Data model (`internal/transcription/interfaces`)

The `interfaces` structs are reconstructed from their uses in
`splitter/merger.go`, the splitter and the post-processor: `TranscriptSegment`
carries `Start`, `End`, `Text`, `Speaker *string`, `Language *string`;
`TranscriptWord` carries `Start`, `End`, `Word`, `Score`, `Speaker *string`;
`TranscriptResult` carries `Text`, `Language`, `Segments`, `WordSegments`,
`Confidence`, `ProcessingTime`, `ModelUsed`, `Metadata map[string]string`.
Go's `End` field is called `endT` here because `end` is a Lean keyword. -/

structure TranscriptSegment where
  start : ℚ
  endT : ℚ
  text : String
  speaker : Option String
  language : Option String
deriving DecidableEq, Repr

structure TranscriptWord where
  start : ℚ
  endT : ℚ
  word : String
  score : ℚ
  speaker : Option String
deriving DecidableEq, Repr

structure TranscriptResult where
  text : String
  language : String
  segments : List TranscriptSegment
  wordSegments : List TranscriptWord
  confidence : ℚ
  /-- Go `time.Duration` (integer nanoseconds). -/
  processingTime : ℤ
  modelUsed : String
  metadata : List (String × String)
deriving DecidableEq, Repr

/-- Embeds `splitter.ChunkInfo`. -/
structure ChunkInfo where
  filePath : String
  startTime : ℚ
  duration : ℚ
  originalIndex : ℕ
deriving DecidableEq, Repr

/-- Embeds `splitter.SplitResult`. -/
structure SplitResult where
  chunks : List ChunkInfo
  originalPath : String
  needsSplit : Bool
deriving DecidableEq, Repr

/-- Embeds `interfaces.AudioInput` as used by the splitter: file path, byte
size, duration (seconds).  The `bitrate` field stands for the result of
`strconv.ParseFloat(input.Metadata["bitrate"], 64)` (`none` when the key is
absent or unparseable). -/
structure AudioInput where
  filePath : String
  size : ℕ
  durationSec : ℚ
  bitrate : Option ℚ
deriving DecidableEq, Repr

/-- Go map assignment `m[k] = v` on the association-list model of
`map[string]string`. -/
def mdInsert (m : List (String × String)) (k v : String) : List (String × String) :=
  (k, v) :: m.filter (fun kv => kv.1 ≠ k)

/-! ## Merger (`internal/transcription/splitter/merger.go`) -/

/-- Embeds `adjustSpeakerLabel` (merger.go:113–130): `nil`/empty labels are
returned unchanged; with speaker references the label passes through; with
more than one chunk the label is prefixed with the chunk index after dropping
a leading `"Speaker "`. -/
def adjustSpeakerLabel (speaker : Option String) (chunkIndex totalChunks : ℕ)
    (speakerRefsUsed : Bool) : Option String :=
  match speaker with
  | none => none
  | some s =>
    if s = "" then some s
    else if speakerRefsUsed then some s
    else if totalChunks > 1 then some (toString chunkIndex ++ "-" ++ strTrimStart s "Speaker ")
    else some s

/-- The time offset used for result `i` in `MergeResults`:
`chunks[i].StartTime` when `i < len(chunks)`, `0` otherwise. -/
def offsetOf (chunks : List ChunkInfo) (i : ℕ) : ℚ :=
  if h : i < chunks.length then (chunks.get ⟨i, h⟩).startTime else 0

/-- One segment of result `i`, shifted by the chunk offset and with its
speaker label adjusted (merger.go:50–60). -/
def adjustSegment (chunks : List ChunkInfo) (n : ℕ) (refs : Bool) (i : ℕ)
    (seg : TranscriptSegment) : TranscriptSegment :=
  { start := seg.start + offsetOf chunks i
    endT := seg.endT + offsetOf chunks i
    text := seg.text
    speaker := adjustSpeakerLabel seg.speaker i n refs
    language := seg.language }

/-- One word of result `i`, shifted and with its speaker label adjusted
(merger.go:62–73). -/
def adjustWord (chunks : List ChunkInfo) (n : ℕ) (refs : Bool) (i : ℕ)
    (w : TranscriptWord) : TranscriptWord :=
  { start := w.start + offsetOf chunks i
    endT := w.endT + offsetOf chunks i
    word := w.word
    score := w.score
    speaker := adjustSpeakerLabel w.speaker i n refs }

/-- The mutable accumulator of the `for i, result := range results` loop of
`MergeResults`. -/
structure MergeState where
  textParts : List String
  segments : List TranscriptSegment
  wordSegments : List TranscriptWord
  totalProcessingTime : ℤ
  totalConfidence : ℚ
  language : String
  modelUsed : String
  metadata : List (String × String)
deriving Repr

def initMergeState : MergeState :=
  ⟨[], [], [], 0, 0, "", "", []⟩

/-- One iteration of the `MergeResults` loop (merger.go:33–91); `nil` results
are skipped. -/
def mergeStep (chunks : List ChunkInfo) (n : ℕ) (refs : Bool)
    (st : MergeState) (p : ℕ × Option TranscriptResult) : MergeState :=
  match p with
  | (_, none) => st
  | (i, some result) =>
    { textParts := st.textParts ++
        (if result.text ≠ "" then [strTrimSpace result.text] else [])
      segments := st.segments ++ result.segments.map (adjustSegment chunks n refs i)
      wordSegments := st.wordSegments ++ result.wordSegments.map (adjustWord chunks n refs i)
      totalProcessingTime := st.totalProcessingTime + result.processingTime
      totalConfidence := st.totalConfidence + result.confidence
      language := if st.language = "" ∧ result.language ≠ "" then result.language else st.language
      modelUsed := if st.modelUsed = "" ∧ result.modelUsed ≠ "" then result.modelUsed else st.modelUsed
      metadata := result.metadata.foldl (fun m kv => mdInsert m kv.1 kv.2) st.metadata }

/-- Embeds `MergeResults` (merger.go:14–108).  `results` is `[]*TranscriptResult`
(`nil` entries become `none`); an empty input yields `none`, a single input is
returned as-is, and otherwise the loop above is folded over the indexed
results and the aggregate result is assembled. -/
def MergeResults (results : List (Option TranscriptResult)) (chunks : List ChunkInfo)
    (speakerRefsUsed : Bool) : Option TranscriptResult :=
  match results with
  | [] => none
  | [r] => r
  | _ =>
    let st := (results.enum).foldl (mergeStep chunks results.length speakerRefsUsed) initMergeState
    let md := mdInsert st.metadata "chunks_processed" (toString results.length)
    let md := if speakerRefsUsed then mdInsert md "speaker_references_used" "true" else md
    some
      { text := String.intercalate " " st.textParts
        language := st.language
        segments := st.segments
        wordSegments := st.wordSegments
        confidence := st.totalConfidence / (results.length : ℚ)
        processingTime := st.totalProcessingTime
        modelUsed := st.modelUsed
        metadata := md }

/-! ### Declarative descriptions used by the merger theorems -/

/-- The segments contributed by one (possibly `nil`) result. -/
def segsOfOpt : Option TranscriptResult → List TranscriptSegment
  | none => []
  | some r => r.segments

/-- The words contributed by one (possibly `nil`) result. -/
def wordsOfOpt : Option TranscriptResult → List TranscriptWord
  | none => []
  | some r => r.wordSegments

/-- The confidence contributed by one (possibly `nil`) result: `nil` results
are skipped by the loop and contribute `0`. -/
def confOfOpt : Option TranscriptResult → ℚ
  | none => 0
  | some r => r.confidence

/-! ## Audio splitter (`splitter/audio_splitter.go`, src/unnamed/part_005:540–875) -/

/-- `MaxFileSizeBytes = 25 * 1024 * 1024` — maximum size before splitting. -/
def MaxFileSizeBytes : ℕ := 25 * 1024 * 1024

/-- `MaxDurationMinutes = 5` — maximum duration (minutes) before splitting. -/
def MaxDurationMinutes : ℚ := 5

/-- `ChunkDurationMinutes = 5` — target chunk duration (minutes). -/
def ChunkDurationMinutes : ℚ := 5

/-- `MinChunkDurationSeconds = 1.0` — minimum duration of a valid chunk. -/
def MinChunkDurationSeconds : ℚ := 1

/-- Embeds `NeedsSplitting` (part_005:598–617): split when the size exceeds
25 MB or the duration exceeds `MaxDurationMinutes` (`input.Duration.Minutes()`
is seconds / 60). -/
def NeedsSplitting (input : AudioInput) : Bool :=
  if input.size > MaxFileSizeBytes then true
  else if input.durationSec / 60 > MaxDurationMinutes then true
  else false

/-- Embeds `calculateChunkDuration` (part_005:727–755): default
`ChunkDurationMinutes * 60` seconds, lowered to fit 20 MB per chunk when a
positive bitrate is known, then clamped to `[60, 300]`. -/
def calculateChunkDuration (input : AudioInput) : ℚ :=
  let chunkDuration : ℚ := ChunkDurationMinutes * 60
  let chunkDuration :=
    match input.bitrate with
    | some bitrate =>
      if bitrate > 0 then
        let targetSizeBytes : ℚ := 20 * 1024 * 1024
        let bytesPerSecond := bitrate / 8
        let calculatedDuration := targetSizeBytes / bytesPerSecond
        if calculatedDuration < chunkDuration then calculatedDuration else chunkDuration
      else chunkDuration
    | none => chunkDuration
  let chunkDuration := if chunkDuration < 60 then 60 else chunkDuration
  if chunkDuration > 300 then 300 else chunkDuration

/-- Embeds `strconv.Atoi` for the file-index suffixes parsed by `findChunks`
(the `chunk_%03d` output pattern only produces digit strings, so the sign
forms accepted by `Atoi` cannot occur). -/
def parseChunkIndex (s : String) : Option ℕ :=
  if s ≠ "" ∧ s.toList.all Char.isDigit then
    some (s.toList.foldl (fun acc c => acc * 10 + (c.toNat - 48)) 0)
  else none

/-- Embeds `findChunks` (part_005:758–796): keep the directory entries named
`chunk_<index><ext>`, parse the index, and sort by it.  `entries` is the file
listing of the chunk directory. -/
def findChunks (chunkDir ext : String) (entries : List String) : List ChunkInfo :=
  let chunks := entries.filterMap (fun name =>
    if strHasEnd name ext ∧ strHasStart name "chunk_" then
      match parseChunkIndex (strTrimStart (strTrimEnd name ext) "chunk_") with
      | some index => some ⟨chunkDir ++ "/" ++ name, 0, 0, index⟩
      | none => none
    else none)
  chunks.mergeSort (fun a b => a.originalIndex ≤ b.originalIndex)

/-- Embeds `populateChunkDurations` (part_005:799–814): probe every chunk for
its duration and accumulate start times; any probe failure fails the whole
pass.  `probe` stands for `ffprobe` (`none` = probe error). -/
def populateChunkDurations (probe : String → Option ℚ) :
    List ChunkInfo → ℚ → Option (List ChunkInfo)
  | [], _ => some []
  | c :: rest, cumulativeStart =>
    match probe c.filePath with
    | none => none
    | some duration =>
      (populateChunkDurations probe rest (cumulativeStart + duration)).map
        (fun cs => { c with startTime := cumulativeStart, duration := duration } :: cs)

/-- Embeds `estimateChunkDurations` (part_005:817–833): every chunk gets the
requested duration except that the tail is capped by the remaining total. -/
def estimateChunkDurations (totalDuration chunkDuration : ℚ) :
    List ChunkInfo → ℚ → List ChunkInfo
  | [], _ => []
  | c :: rest, cumulativeStart =>
    let remaining := totalDuration - cumulativeStart
    let d := if remaining < chunkDuration then remaining else chunkDuration
    { c with startTime := cumulativeStart, duration := d } ::
      estimateChunkDurations totalDuration chunkDuration rest (cumulativeStart + d)

/-- Embeds `Split` (part_005:620–724).  The external effects are explicit:
`ffmpegOk` is whether the `ffmpeg` segmentation succeeded, `entries` is the
chunk-directory listing it produced, and `probe` is the `ffprobe` duration
oracle.  Directory creation errors are not modelled. -/
def Split (tempDirectory : String) (input : AudioInput) (jobID : String)
    (ffmpegOk : Bool) (entries : List String) (probe : String → Option ℚ) :
    Except String SplitResult :=
  if ¬ NeedsSplitting input then
    .ok ⟨[⟨input.filePath, 0, input.durationSec, 0⟩], input.filePath, false⟩
  else
    let chunkDir := tempDirectory ++ "/" ++ jobID ++ "/chunks"
    let chunkDurationSec := calculateChunkDuration input
    if ¬ ffmpegOk then .error "ffmpeg split failed"
    else
      let chunks := findChunks chunkDir ".mp3" entries
      if chunks.length = 0 then .error "no chunks were created"
      else
        let chunks :=
          match populateChunkDurations probe chunks 0 with
          | some cs => cs
          | none => estimateChunkDurations input.durationSec chunkDurationSec chunks 0
        let validChunks := chunks.filter (fun c => c.duration ≥ MinChunkDurationSeconds)
        if validChunks.length = 0 then
          .error "no valid chunks after filtering (all chunks too short)"
        else .ok ⟨validChunks, input.filePath, true⟩

/-! ## Remote adapter retry loop (`adapters/openai_adapter.go:277–313`) -/

/-- The outcome of one `client.Do(req)` call: a response was received (any
HTTP status), or the call returned an error with the given message. -/
inductive AttemptResult where
  | ok : AttemptResult
  | err (msg : String) : AttemptResult
deriving DecidableEq, Repr

/-- How the retry loop ended. -/
inductive RetryOutcome where
  /-- `break` after a successful `client.Do` at this attempt. -/
  | success (attempt : ℕ) : RetryOutcome
  /-- `return nil, fmt.Errorf("request failed: %w", err)` at this attempt. -/
  | failed (attempt : ℕ) (msg : String) : RetryOutcome
  /-- `return nil, ctx.Err()` — context cancelled during the backoff that
  followed this attempt. -/
  | cancelled (attempt : ℕ) : RetryOutcome
  /-- The `for` loop condition became false (unreachable from attempt 1). -/
  | exited : RetryOutcome
deriving DecidableEq, Repr

/-- Trace of the retry loop: the attempts issued, the backoffs (seconds)
fully waited between them, and the outcome. -/
structure RetryTrace where
  attempts : List ℕ
  backoffs : List ℚ
  outcome : RetryOutcome
deriving DecidableEq, Repr

/-- Embeds `isRetryable` (openai_adapter.go:291–298). -/
def isRetryableMsg (msg : String) : Bool :=
  strContains msg "EOF" || strContains msg "connection reset" ||
  strContains msg "timeout" || strContains msg "connection refused" ||
  strContains msg "network is unreachable" || strContains msg "broken pipe" ||
  strContains msg "connection closed"

/-- Embeds the retry loop of `Transcribe` (openai_adapter.go:277–313):
`maxRetries = 3`; a retryable failure before the last attempt waits
`attempt² · 5` seconds (aborted by context cancellation) and retries.
`doAttempt k` is the outcome of the `k`-th `client.Do`; `ctxDone k` is
whether the context is cancelled during the backoff following attempt `k`. -/
def retryLoop (doAttempt : ℕ → AttemptResult) (ctxDone : ℕ → Bool)
    (attempt : ℕ) : RetryTrace :=
  if h : attempt > 3 then ⟨[], [], .exited⟩
  else
    match doAttempt attempt with
    | .ok => ⟨[attempt], [], .success attempt⟩
    | .err msg =>
      if ¬ isRetryableMsg msg ∨ attempt = 3 then ⟨[attempt], [], .failed attempt msg⟩
      else if ctxDone attempt then ⟨[attempt], [], .cancelled attempt⟩
      else
        let rest := retryLoop doAttempt ctxDone (attempt + 1)
        ⟨attempt :: rest.attempts, ((attempt * attempt : ℕ) : ℚ) * 5 :: rest.backoffs,
          rest.outcome⟩
termination_by 4 - attempt
decreasing_by omega

/-! ## AI post-processor (`postprocessor/ai_postprocessor.go`, segment merger
`src/unnamed/part_001`) -/

/-- Embeds `CleanedSegment` (part_001:8–14). -/
structure CleanedSegment where
  text : String
  speaker : String
  start : ℚ
  endT : ℚ
  mergeWithNext : Bool
deriving DecidableEq, Repr

/-- Embeds `concatenateTexts` (part_001:94–107): plain concatenation with no
separator. -/
def concatenateTexts (texts : List String) : String :=
  match texts with
  | [] => ""
  | [t] => t
  | t :: rest => rest.foldl (fun acc s => acc ++ s) t

/-- Embeds `mergeSegmentRange` (part_001:65–91) applied to the (nonempty)
merge chain `segments[startIdx..endIdx]`: `[REMOVE]` texts are dropped from
the text, the first segment supplies start time and speaker, the last
supplies the end time; a chain of only `[REMOVE]` texts yields nothing. -/
def mergeSegmentRange (chain : List CleanedSegment) : Option TranscriptSegment :=
  match chain with
  | [] => none
  | first :: _ =>
    let texts := (chain.filter (fun s => s.text ≠ "[REMOVE]")).map (fun s => s.text)
    if texts = [] then none
    else
      some
        { start := first.start
          endT := (chain.getLast?.getD first).endT
          text := concatenateTexts texts
          speaker := some first.speaker
          language := none }

mutual

/-- Embeds the scan loop of `ApplyMerges` (part_001:26–59): `[REMOVE]`
segments are skipped; a segment with `merge_with_next` that is not the last
element opens a merge chain; anything else converts directly. -/
def applyMergesGo : List CleanedSegment → List TranscriptSegment
  | [] => []
  | seg :: rest =>
    if seg.text = "[REMOVE]" then applyMergesGo rest
    else if seg.mergeWithNext ∧ rest ≠ [] then mergeChainGo [seg] rest
    else
      { start := seg.start, endT := seg.endT, text := seg.text,
        speaker := some seg.speaker, language := none } :: applyMergesGo rest

/-- The inner `for mergeEnd < len(cleaned)-1 && cleaned[mergeEnd].MergeWithNext`
scan: extend the chain while the flag is set and more input remains, then
merge the chain and continue after it. -/
def mergeChainGo (acc : List CleanedSegment) : List CleanedSegment → List TranscriptSegment
  | [] => (mergeSegmentRange acc).toList
  | seg :: rest =>
    if seg.mergeWithNext ∧ rest ≠ [] then mergeChainGo (acc ++ [seg]) rest
    else (mergeSegmentRange (acc ++ [seg])).toList ++ applyMergesGo rest

end

/-- Embeds `ApplyMerges` (part_001:18–62).  (`nil` and `[]` both embed as the
empty list, so the `len(cleaned) == 0` early return is the `[]` equation of
`applyMergesGo`.) -/
def ApplyMerges (cleaned : List CleanedSegment) : List TranscriptSegment :=
  applyMergesGo cleaned

/-- The inner loop of `MergeWordSegments` (part_001:121–129): the first merged
segment whose interval contains the word supplies the word's new speaker. -/
def assignWordSpeaker (word : TranscriptWord) : List TranscriptSegment → TranscriptWord
  | [] => word
  | seg :: rest =>
    if word.start ≥ seg.start ∧ word.endT ≤ seg.endT then { word with speaker := seg.speaker }
    else assignWordSpeaker word rest

/-- Embeds `MergeWordSegments` (part_001:110–133). -/
def MergeWordSegments (words : List TranscriptWord)
    (originalSegments mergedSegments : List TranscriptSegment) : List TranscriptWord :=
  if words.length = 0 ∨ mergedSegments.length = 0 then words
  else words.map (fun w => assignWordSpeaker w mergedSegments)

/-- Embeds `rebuildFullText` (ai_postprocessor.go:262–270). -/
def rebuildFullText (segments : List TranscriptSegment) : String :=
  String.intercalate " "
    ((segments.filter (fun seg => seg.text ≠ "" ∧ seg.text ≠ "[REMOVE]")).map (fun seg => seg.text))

/-- Embeds `mapPremergedSegments` (ai_postprocessor.go:243–259): the LLM's
pre-merged segments are used directly (its timestamps included); an empty LLM
list falls back to the original segments. -/
def mapPremergedSegments (llmSegments originalSegments : List CleanedSegment) :
    List CleanedSegment :=
  if llmSegments.length = 0 then originalSegments else llmSegments

/-- Embeds `parseCleanupResponse` (ai_postprocessor.go:211–238).  `parsed`
stands for the result of `json.Unmarshal` on the fence-stripped response
(`none` = invalid JSON): more segments than the input is an error, an equal
count is used as-is, fewer are treated as pre-merged. -/
def parseCleanupResponse (parsed : Option (List CleanedSegment))
    (originalSegments : List CleanedSegment) : Except String (List CleanedSegment) :=
  match parsed with
  | none => .error "invalid JSON"
  | some segments =>
    if segments.length > originalSegments.length then
      .error ("segment count increased: expected <= " ++ toString originalSegments.length ++
        ", got " ++ toString segments.length)
    else if segments.length = originalSegments.length then .ok segments
    else .ok (mapPremergedSegments segments originalSegments)

/-- The conversion `TranscriptSegment → CleanedSegment` used both for the LLM
input (ai_postprocessor.go:162–174) and for the per-batch fallback
(ai_postprocessor.go:75–86): a `nil` speaker becomes `""`. -/
def toCleaned (seg : TranscriptSegment) : CleanedSegment :=
  { text := seg.text
    speaker := seg.speaker.getD ""
    start := seg.start
    endT := seg.endT
    mergeWithNext := false }

/-- Embeds `processBatch` (ai_postprocessor.go:157–207) with the LLM call as
an oracle: `resp = none` stands for a failed request or an empty choice list,
`resp = some parsed` for a response whose JSON parse result is `parsed`. -/
def processBatchM (batch : List TranscriptSegment)
    (resp : Option (Option (List CleanedSegment))) : Except String (List CleanedSegment) :=
  match resp with
  | none => .error "LLM request failed"
  | some parsed => parseCleanupResponse parsed (batch.map toCleaned)

/-- The `for i := 0; i < len(segments); i += maxSegmentsPerBatch` slicing loop
of `splitIntoBatches`. -/
def chunkBatches (maxB : ℕ) : List TranscriptSegment → List (List TranscriptSegment)
  | [] => []
  | seg :: rest =>
    (seg :: rest.take (maxB - 1)) :: chunkBatches maxB (rest.drop (maxB - 1))
termination_by l => l.length
decreasing_by
  simp only [List.length_cons, List.length_drop]
  omega

/-- Embeds `splitIntoBatches` (ai_postprocessor.go:139–154). -/
def splitIntoBatches (maxB : ℕ) (segments : List TranscriptSegment) :
    List (List TranscriptSegment) :=
  if segments.length ≤ maxB then [segments] else chunkBatches maxB segments

/-- `DefaultMaxSegmentsPerBatch = 50`. -/
def DefaultMaxSegmentsPerBatch : ℕ := 50

/-- Embeds `ProcessTranscript` (ai_postprocessor.go:47–119) for an enabled
post-processor with `maxSegmentsPerBatch = 50`.  `resps` holds one oracle
entry per batch (missing entries mean the request failed); a failed batch
falls back to that batch's original segments converted via `toCleaned`.  The
Go function returns a `nil` error on every path modelled here, so the model
is total. -/
def ProcessTranscript (enabled : Bool) (model : String) (result : TranscriptResult)
    (resps : List (Option (Option (List CleanedSegment)))) : TranscriptResult :=
  if ¬ enabled then result
  else if result.segments.length = 0 then result
  else
    let batches := splitIntoBatches DefaultMaxSegmentsPerBatch result.segments
    let allCleaned := (batches.enum).foldl
      (fun acc p =>
        match processBatchM p.2 (resps.getD p.1 none) with
        | .error _ => acc ++ p.2.map toCleaned
        | .ok cleaned => acc ++ cleaned)
      []
    let mergedSegments := ApplyMerges allCleaned
    { text := rebuildFullText mergedSegments
      language := result.language
      segments := mergedSegments
      wordSegments := MergeWordSegments result.wordSegments result.segments mergedSegments
      confidence := result.confidence
      processingTime := result.processingTime
      modelUsed := result.modelUsed
      metadata := mdInsert (mdInsert result.metadata "ai_postprocessed" "true")
        "postprocessor_model" model }

/-! ## Loop-invariant lemmas for `MergeResults` -/

/-- The segments accumulated by folding `mergeStep` are the in-order
concatenation of each (non-`nil`) result's adjusted segments. -/
theorem foldl_mergeStep_segments (chunks : List ChunkInfo) (n : ℕ) (refs : Bool) :
    ∀ (l : List (ℕ × Option TranscriptResult)) (st : MergeState),
      (l.foldl (mergeStep chunks n refs) st).segments =
        st.segments ++ l.flatMap (fun p => (segsOfOpt p.2).map (adjustSegment chunks n refs p.1)) := by
  intro l
  induction l with
  | nil => intro st; simp
  | cons p rest ih =>
    intro st
    obtain ⟨i, r⟩ := p
    cases r with
    | none => simp [mergeStep, ih, segsOfOpt]
    | some result => simp [mergeStep, ih, segsOfOpt]

/-- Word-segment analogue of `foldl_mergeStep_segments`. -/
theorem foldl_mergeStep_words (chunks : List ChunkInfo) (n : ℕ) (refs : Bool) :
    ∀ (l : List (ℕ × Option TranscriptResult)) (st : MergeState),
      (l.foldl (mergeStep chunks n refs) st).wordSegments =
        st.wordSegments ++ l.flatMap (fun p => (wordsOfOpt p.2).map (adjustWord chunks n refs p.1)) := by
  intro l
  induction l with
  | nil => intro st; simp
  | cons p rest ih =>
    intro st
    obtain ⟨i, r⟩ := p
    cases r with
    | none => simp [mergeStep, ih, wordsOfOpt]
    | some result => simp [mergeStep, ih, wordsOfOpt]

/-- The confidence accumulated by folding `mergeStep` is the sum of the
non-`nil` results' confidences. -/
theorem foldl_mergeStep_confidence (chunks : List ChunkInfo) (n : ℕ) (refs : Bool) :
    ∀ (l : List (ℕ × Option TranscriptResult)) (st : MergeState),
      (l.foldl (mergeStep chunks n refs) st).totalConfidence =
        st.totalConfidence + (l.map (fun p => confOfOpt p.2)).sum := by
  intro l
  induction l with
  | nil => intro st; simp
  | cons p rest ih =>
    intro st
    obtain ⟨i, r⟩ := p
    cases r with
    | none => simp [mergeStep, ih, confOfOpt]
    | some result => simp [mergeStep, ih, confOfOpt]; ring

/-- `MergeResults` on two or more results: shape of the output. -/
theorem MergeResults_cons_cons (a b : Option TranscriptResult)
    (t : List (Option TranscriptResult)) (chunks : List ChunkInfo) (refs : Bool) :
    MergeResults (a :: b :: t) chunks refs =
      some
        (let results := a :: b :: t
         let st := (results.enum).foldl (mergeStep chunks results.length refs) initMergeState
         let md := mdInsert st.metadata "chunks_processed" (toString results.length)
         let md := if refs then mdInsert md "speaker_references_used" "true" else md
         { text := String.intercalate " " st.textParts
           language := st.language
           segments := st.segments
           wordSegments := st.wordSegments
           confidence := st.totalConfidence / (results.length : ℚ)
           processingTime := st.totalProcessingTime
           modelUsed := st.modelUsed
           metadata := md }) := rfl

/-! ## Decimal representation of chunk indices -/

theorem digitChar_isDigit : ∀ m : ℕ, m < 10 → (Nat.digitChar m).isDigit = true := by decide

theorem toDigitsCore_digits :
    ∀ (f n : ℕ) (ds : List Char), (∀ c ∈ ds, c.isDigit = true) →
      ∀ c ∈ Nat.toDigitsCore 10 f n ds, c.isDigit = true := by
  intro f
  induction f with
  | zero => intro n ds hds; simpa [Nat.toDigitsCore] using hds
  | succ f ih =>
    intro n ds hds c hc
    have hd : (Nat.digitChar (n % 10)).isDigit = true :=
      digitChar_isDigit _ (Nat.mod_lt _ (by norm_num))
    rw [Nat.toDigitsCore] at hc
    by_cases hz : n / 10 = 0
    · simp only [hz, if_pos rfl] at hc
      rcases List.mem_cons.mp hc with h | h
      · simpa [h] using hd
      · exact hds c h
    · simp only [if_neg hz] at hc
      refine ih (n / 10) (Nat.digitChar (n % 10) :: ds) ?_ c hc
      intro c' hc'
      rcases List.mem_cons.mp hc' with h | h
      · simpa [h] using hd
      · exact hds c' h

theorem toDigitsCore_length_le :
    ∀ (f n : ℕ) (ds : List Char), ds.length ≤ (Nat.toDigitsCore 10 f n ds).length := by
  intro f
  induction f with
  | zero => intro n ds; simp [Nat.toDigitsCore]
  | succ f ih =>
    intro n ds
    rw [Nat.toDigitsCore]
    by_cases hz : n / 10 = 0
    · simp [hz]
    · simp only [if_neg hz]
      calc ds.length ≤ (Nat.digitChar (n % 10) :: ds).length := by simp
        _ ≤ _ := ih (n / 10) (Nat.digitChar (n % 10) :: ds)

/-- The decimal string of a natural number is nonempty and all digits. -/
theorem natRepr_digits (n : ℕ) :
    (toString n).toList ≠ [] ∧ ∀ c ∈ (toString n).toList, c.isDigit = true := by
  have heq : (toString n).toList = Nat.toDigits 10 n := rfl
  constructor
  · rw [heq, Nat.toDigits]
    rw [Nat.toDigitsCore]
    by_cases hz : n / 10 = 0
    · simp [hz]
    · simp only [if_neg hz]
      have := toDigitsCore_length_le n (n / 10) [Nat.digitChar (n % 10)]
      intro hnil
      rw [hnil] at this
      simp at this
  · rw [heq]
    exact toDigitsCore_digits (n + 1) n [] (by simp)

/-- A string matching the regular expression `^\d+-.*$`: one or more digits,
then a dash, then anything. -/
def ChunkTagLoose (s : String) : Prop :=
  ∃ ds rest : List Char, s.toList = ds ++ ['-'] ++ rest ∧ ds ≠ [] ∧ ∀ c ∈ ds, c.isDigit = true

/-- A string matching the regular expression `^\d+-.+$`: one or more digits,
then a dash, then at least one character. -/
def ChunkTag (s : String) : Prop :=
  ∃ ds rest : List Char, s.toList = ds ++ ['-'] ++ rest ∧ ds ≠ [] ∧
    (∀ c ∈ ds, c.isDigit = true) ∧ rest ≠ []

theorem toList_append (s t : String) : (s ++ t).toList = s.toList ++ t.toList :=
  String.data_append s t

/-- The label produced by the prefixing branch of `adjustSpeakerLabel` always
matches `^\d+-.*$`, and matches `^\d+-.+$` when the stripped label is
nonempty. -/
theorem chunkTag_of_label (i : ℕ) (stripped : String) :
    ChunkTagLoose (toString i ++ "-" ++ stripped) ∧
      (stripped ≠ "" → ChunkTag (toString i ++ "-" ++ stripped)) := by
  obtain ⟨hne, hdig⟩ := natRepr_digits i
  have hsplit : (toString i ++ "-" ++ stripped).toList =
      (toString i).toList ++ ['-'] ++ stripped.toList := by
    rw [toList_append, toList_append]; rfl
  refine ⟨⟨(toString i).toList, stripped.toList, hsplit, hne, hdig⟩, fun hs => ?_⟩
  refine ⟨(toString i).toList, stripped.toList, hsplit, hne, hdig, fun hnil => hs ?_⟩
  cases stripped with
  | mk data => exact congrArg String.mk hnil

/-! ## Claim C10 -/

/-- **C10** — For every merge configuration (any chunk index, any total chunk
count, with or without speaker references), a `nil` or empty-string speaker
label is returned unchanged by `adjustSpeakerLabel`: an empty label is never
given a chunk-index prefix. -/
theorem C10_empty_label_unchanged (chunkIndex totalChunks : ℕ) (speakerRefsUsed : Bool) :
    adjustSpeakerLabel none chunkIndex totalChunks speakerRefsUsed = none ∧
    adjustSpeakerLabel (some "") chunkIndex totalChunks speakerRefsUsed = some "" := by
  constructor <;> simp [adjustSpeakerLabel]

/-! ## Claim C9 -/

/-- The inner break-on-first-match loop of `MergeWordSegments` equals a
`find?` of the first merged segment containing the word. -/
theorem assignWordSpeaker_eq_find (w : TranscriptWord) :
    ∀ segs : List TranscriptSegment,
      assignWordSpeaker w segs =
        match segs.find? (fun s => decide (s.start ≤ w.start ∧ w.endT ≤ s.endT)) with
        | some s => { w with speaker := s.speaker }
        | none => w := by
  intro segs
  induction segs with
  | nil => simp [assignWordSpeaker]
  | cons seg rest ih =>
    by_cases h : seg.start ≤ w.start ∧ w.endT ≤ seg.endT
    · simp only [assignWordSpeaker, List.find?, decide_eq_true (show seg.start ≤ w.start ∧ w.endT ≤ seg.endT from h)]
      rw [if_pos ⟨h.1, h.2⟩]
    · have h' : ¬ (w.start ≥ seg.start ∧ w.endT ≤ seg.endT) := by
        intro ⟨h1, h2⟩; exact h ⟨h1, h2⟩
      simp only [assignWordSpeaker, if_neg h', List.find?]
      rw [ih]
      have : (decide (seg.start ≤ w.start ∧ w.endT ≤ seg.endT)) = false := by
        simpa using h
      simp [this]

/-- **C9** — `MergeWordSegments` returns a list of the same length and order
as its word-list input; each word keeps its text, start, end and score, and
its speaker is replaced exactly when some merged segment's interval contains
`[word.start, word.end]` (by the first such segment's speaker), otherwise the
word is unchanged. -/
theorem C9_word_reattribution_frame (words : List TranscriptWord)
    (originalSegments mergedSegments : List TranscriptSegment) :
    (MergeWordSegments words originalSegments mergedSegments).length = words.length ∧
    MergeWordSegments words originalSegments mergedSegments =
      words.map (fun w =>
        match mergedSegments.find? (fun s => decide (s.start ≤ w.start ∧ w.endT ≤ s.endT)) with
        | some s => { w with speaker := s.speaker }
        | none => w) := by
  have key : MergeWordSegments words originalSegments mergedSegments =
      words.map (fun w =>
        match mergedSegments.find? (fun s => decide (s.start ≤ w.start ∧ w.endT ≤ s.endT)) with
        | some s => { w with speaker := s.speaker }
        | none => w) := by
    unfold MergeWordSegments
    by_cases hw : words.length = 0
    · rw [if_pos (Or.inl hw)]
      rw [List.length_eq_zero] at hw
      simp [hw]
    · by_cases hm : mergedSegments.length = 0
      · rw [if_pos (Or.inr hm)]
        rw [List.length_eq_zero] at hm
        subst hm
        simp
      · rw [if_neg (by simp [hw, hm])]
        exact List.map_congr_left (fun w _ => assignWordSpeaker_eq_find w mergedSegments)
  exact ⟨by rw [key, List.length_map], key⟩

/-! ## Claim C8 -/

/-- Summing `confOfOpt` over a list of optional results equals summing the
confidences of its non-`nil` entries. -/
theorem sum_confOfOpt_eq (l : List (Option TranscriptResult)) :
    (l.map confOfOpt).sum = ((l.filterMap id).map TranscriptResult.confidence).sum := by
  induction l with
  | nil => simp
  | cons x xs ih =>
    cases x with
    | none => simp [confOfOpt, ih]
    | some r => simp [confOfOpt, ih]

/-- **C8, amended** — for a merge of more than one result, the merged
confidence is the sum of the non-`nil` results' confidences divided by the
**total** number of results (`nil` entries included), not by the number of
non-`nil` results. -/
theorem C8_confidence_mean_over_all_results (results : List (Option TranscriptResult))
    (chunks : List ChunkInfo) (refs : Bool) (h : 1 < results.length) :
    (MergeResults results chunks refs).map TranscriptResult.confidence =
      some ((((results.filterMap id).map TranscriptResult.confidence).sum) /
        (results.length : ℚ)) := by
  match results, h with
  | a :: b :: t, _ =>
    rw [MergeResults_cons_cons]
    simp only [Option.map_some']
    congr 1
    rw [foldl_mergeStep_confidence]
    simp only [initMergeState, zero_add]
    congr 1
    have hsnd : (a :: b :: t).enum.map (fun p => confOfOpt p.2) =
        (a :: b :: t).map confOfOpt := by
      rw [show (fun p : ℕ × Option TranscriptResult => confOfOpt p.2) =
        (confOfOpt ∘ Prod.snd) from rfl]
      rw [← List.map_map, List.enum_map_snd]
    rw [hsnd, sum_confOfOpt_eq]

/-- The single non-`nil` result used by the C8 counterexample. -/
def confWitnessResult : TranscriptResult :=
  { text := "", language := "", segments := [], wordSegments := [], confidence := 1,
    processingTime := 0, modelUsed := "", metadata := [] }

/-- **C8, counterexample** — merging `[r, nil]` where `r.Confidence = 1`
yields confidence `1/2` (the divisor is `len(results) = 2`), not the mean of
the non-`nil` confidences (`1/1 = 1`) that the claim requires. -/
theorem C8_counterexample :
    (MergeResults [some confWitnessResult, none] [] false).map TranscriptResult.confidence ≠
      some (((([some confWitnessResult, none].filterMap id).map
          TranscriptResult.confidence).sum) /
        ((([some confWitnessResult, none].filterMap id).length : ℚ))) := by
  rw [MergeResults_cons_cons]
  simp only [Option.map_some', ne_eq, Option.some.injEq]
  rw [foldl_mergeStep_confidence]
  simp [initMergeState, List.enum, List.enumFrom, confOfOpt, confWitnessResult]

/-- Witness for `C8_confidence_mean_over_all_results` at a concrete input. -/
theorem C8_witness :
    (MergeResults [some confWitnessResult, none] [] false).map TranscriptResult.confidence =
      some ((1 : ℚ) / 2) := by
  rw [C8_confidence_mean_over_all_results [some confWitnessResult, none] [] false (by simp)]
  simp [confWitnessResult]

/-! ## Claim C5 -/

/-- **C5** — For every input with `size ≤ 25 MB` and `duration ≤ MAX_MIN`
(both limits inclusive: input exactly at the limit does not split), `Split`
returns exactly one chunk whose path is the input path, whose start time is
`0`, whose duration is the input duration, with `needs_split = false` —
regardless of the external `ffmpeg`/`ffprobe`/directory oracles. -/
theorem C5_no_split_under_limits (tempDirectory jobID : String) (input : AudioInput)
    (ffmpegOk : Bool) (entries : List String) (probe : String → Option ℚ)
    (hsize : input.size ≤ 25 * 1024 * 1024)
    (hdur : input.durationSec / 60 ≤ 5) :
    Split tempDirectory input jobID ffmpegOk entries probe =
      .ok ⟨[⟨input.filePath, 0, input.durationSec, 0⟩], input.filePath, false⟩ := by
  have hns : NeedsSplitting input = false := by
    unfold NeedsSplitting MaxFileSizeBytes MaxDurationMinutes
    rw [if_neg (by omega), if_neg (by exact not_lt.mpr hdur)]
  unfold Split
  rw [if_pos (by simp [hns])]

/-- Witness for `C5_no_split_under_limits`: a 100-byte, 60-second input. -/
theorem C5_witness :
    Split "/tmp" ⟨"a.mp3", 100, 60, none⟩ "job" true [] (fun _ => none) =
      .ok ⟨[⟨"a.mp3", 0, 60, 0⟩], "a.mp3", false⟩ :=
  C5_no_split_under_limits "/tmp" "job" ⟨"a.mp3", 100, 60, none⟩ true [] (fun _ => none)
    (by norm_num) (by norm_num)

/-! ## Claim C3 -/

/-- **C3, amended** — On the splitting path (`needs_split = true`) every
returned chunk has duration ≥ 1.0 s (shorter chunks are dropped), and if all
chunks are filtered out `Split` fails instead of returning an empty list.  In
the single-chunk no-split case the chunk inherits the input duration, which
may be below 1.0 s. -/
theorem C3_min_duration_on_split_path (tempDirectory jobID : String) (input : AudioInput)
    (ffmpegOk : Bool) (entries : List String) (probe : String → Option ℚ)
    (r : SplitResult)
    (h : Split tempDirectory input jobID ffmpegOk entries probe = .ok r)
    (hsplit : r.needsSplit = true) :
    r.chunks ≠ [] ∧ ∀ c ∈ r.chunks, MinChunkDurationSeconds ≤ c.duration := by
  simp only [Split] at h
  split at h
  · -- no-split branch: the returned result has needsSplit = false
    rw [Except.ok.injEq] at h
    rw [← h] at hsplit
    simp at hsplit
  · split at h
    · exact absurd h (by simp)
    · split at h
      · exact absurd h (by simp)
      · split at h
        · exact absurd h (by simp)
        · rename_i hvalid
          rw [Except.ok.injEq] at h
          subst h
          dsimp only at hvalid ⊢
          refine ⟨?_, ?_⟩
          · intro hnil
            rw [hnil] at hvalid
            simp at hvalid
          · intro c hc
            have := List.of_mem_filter hc
            simpa using this

/-- The concrete `Split` run backing the C3 witness: a splitting input whose
single found chunk probes at 300 s. -/
theorem C3_witness_split_run :
    Split "/t" ⟨"a.mp3", 100, 400, none⟩ "j" true ["chunk_000.mp3"] (fun _ => some 300) =
      .ok ⟨[⟨"/t/j/chunks/chunk_000.mp3", 0, 300, 0⟩], "a.mp3", true⟩ := by
  have hns : NeedsSplitting ⟨"a.mp3", 100, 400, none⟩ = true := by
    unfold NeedsSplitting MaxFileSizeBytes MaxDurationMinutes
    rw [if_neg (by norm_num), if_pos (by norm_num)]
  have hfind : findChunks ("/t" ++ "/" ++ "j" ++ "/chunks") ".mp3" ["chunk_000.mp3"] =
      [⟨"/t/j/chunks/chunk_000.mp3", 0, 0, 0⟩] := by
    simp +decide [findChunks, parseChunkIndex, strHasEnd, strHasStart, strTrimEnd,
      strTrimStart, List.filterMap]
  have hpop : populateChunkDurations (fun _ => some (300 : ℚ))
      [(⟨"/t/j/chunks/chunk_000.mp3", 0, 0, 0⟩ : ChunkInfo)] 0 =
      some [⟨"/t/j/chunks/chunk_000.mp3", 0, 300, 0⟩] := by
    simp [populateChunkDurations]
  simp only [Split, hns, hfind, hpop]
  norm_num [MinChunkDurationSeconds, List.filter]

/-- Witness for `C3_min_duration_on_split_path` at a concrete input. -/
theorem C3_witness :
    ([(⟨"/t/j/chunks/chunk_000.mp3", 0, 300, 0⟩ : ChunkInfo)] ≠ ([] : List ChunkInfo)) ∧
      ∀ c ∈ [(⟨"/t/j/chunks/chunk_000.mp3", 0, 300, 0⟩ : ChunkInfo)],
        MinChunkDurationSeconds ≤ c.duration :=
  C3_min_duration_on_split_path "/t" "j" ⟨"a.mp3", 100, 400, none⟩ true ["chunk_000.mp3"]
    (fun _ => some 300) ⟨[⟨"/t/j/chunks/chunk_000.mp3", 0, 300, 0⟩], "a.mp3", true⟩
    C3_witness_split_run rfl

/-- **C3, counterexample** — a 0.5-second input under both split limits: the
no-split path returns its single chunk with duration `1/2 < 1.0`, so the
claimed `duration ≥ 1.0` invariant does not hold for the single-chunk
no-split case. -/
theorem C3_counterexample :
    Split "/t" ⟨"a.mp3", 100, 1/2, none⟩ "j" true [] (fun _ => none) =
      .ok ⟨[⟨"a.mp3", 0, 1/2, 0⟩], "a.mp3", false⟩ ∧
    ¬ MinChunkDurationSeconds ≤ ((1 : ℚ)/2) := by
  constructor
  · have hns : NeedsSplitting ⟨"a.mp3", 100, 1/2, none⟩ = false := by
      unfold NeedsSplitting MaxFileSizeBytes MaxDurationMinutes
      rw [if_neg (by norm_num), if_neg (by norm_num)]
    unfold Split
    rw [if_pos (by rw [hns]; simp)]
  · unfold MinChunkDurationSeconds
    norm_num

/-! ## Length bounds for the post-processor -/

theorem mergeSegmentRange_length_le (chain : List CleanedSegment) :
    ((mergeSegmentRange chain).toList).length ≤ 1 := by
  cases mergeSegmentRange chain <;> simp

/-- Strong-induction core: both loops of `ApplyMerges` never produce more
segments than they consume. -/
theorem applyMerges_length_aux :
    ∀ n : ℕ,
      (∀ l : List CleanedSegment, l.length ≤ n → (applyMergesGo l).length ≤ l.length) ∧
      (∀ (acc : List CleanedSegment) (seg : CleanedSegment) (rest : List CleanedSegment),
        (seg :: rest).length ≤ n →
        (mergeChainGo acc (seg :: rest)).length ≤ (seg :: rest).length) := by
  intro n
  induction n with
  | zero =>
    constructor
    · intro l hl
      rw [List.length_eq_zero.mp (Nat.le_zero.mp hl)]
      simp [applyMergesGo]
    · intro acc seg rest hl
      simp at hl
  | succ n ih =>
    constructor
    · intro l hl
      cases l with
      | nil => simp [applyMergesGo]
      | cons seg rest =>
        rw [applyMergesGo]
        by_cases hrm : seg.text = "[REMOVE]"
        · rw [if_pos hrm]
          have := ih.1 rest (by simp at hl ⊢; omega)
          calc (applyMergesGo rest).length ≤ rest.length := this
            _ ≤ (seg :: rest).length := by simp
        · rw [if_neg hrm]
          by_cases hm : seg.mergeWithNext = true ∧ rest ≠ []
          · rw [if_pos hm]
            cases rest with
            | nil => exact absurd rfl hm.2
            | cons y t =>
              have := ih.2 [seg] y t (by simp at hl ⊢; omega)
              calc (mergeChainGo [seg] (y :: t)).length ≤ (y :: t).length := this
                _ ≤ (seg :: y :: t).length := by simp
          · rw [if_neg hm]
            have := ih.1 rest (by simp at hl ⊢; omega)
            simpa using Nat.succ_le_succ this
    · intro acc seg rest hl
      rw [mergeChainGo]
      by_cases hm : seg.mergeWithNext = true ∧ rest ≠ []
      · rw [if_pos hm]
        cases rest with
        | nil => exact absurd rfl hm.2
        | cons y t =>
          have := ih.2 (acc ++ [seg]) y t (by simp at hl ⊢; omega)
          calc (mergeChainGo (acc ++ [seg]) (y :: t)).length ≤ (y :: t).length := this
            _ ≤ (seg :: y :: t).length := by simp
      · rw [if_neg hm]
        have h1 := mergeSegmentRange_length_le (acc ++ [seg])
        have h2 := ih.1 rest (by simp at hl ⊢; omega)
        rw [List.length_append]
        simp only [List.length_cons]
        omega

/-- `ApplyMerges` never produces more segments than it consumes. -/
theorem ApplyMerges_length_le (l : List CleanedSegment) :
    (ApplyMerges l).length ≤ l.length :=
  (applyMerges_length_aux l.length).1 l le_rfl

/-- A parse accepted by `parseCleanupResponse` never has more segments than
the batch input. -/
theorem parseCleanupResponse_ok_length (parsed : Option (List CleanedSegment))
    (orig out : List CleanedSegment) (h : parseCleanupResponse parsed orig = .ok out) :
    out.length ≤ orig.length := by
  unfold parseCleanupResponse at h
  cases parsed with
  | none => simp at h
  | some segs =>
    simp only at h
    split at h
    · simp at h
    · split at h
      · rename_i heq
        rw [Except.ok.injEq] at h
        subst h
        omega
      · rename_i hgt _
        rw [Except.ok.injEq] at h
        subst h
        unfold mapPremergedSegments
        split
        · exact le_rfl
        · omega

/-- The batches produced by the slicing loop concatenate back to the input. -/
theorem chunkBatches_flatten_aux (maxB : ℕ) :
    ∀ (n : ℕ) (l : List TranscriptSegment), l.length ≤ n →
      (chunkBatches maxB l).flatten = l := by
  intro n
  induction n with
  | zero =>
    intro l hl
    rw [List.length_eq_zero.mp (Nat.le_zero.mp hl)]
    simp [chunkBatches]
  | succ n ih =>
    intro l hl
    cases l with
    | nil => simp [chunkBatches]
    | cons x xs =>
      rw [chunkBatches]
      rw [List.flatten_cons]
      rw [ih (xs.drop (maxB - 1)) (by simp at hl ⊢; omega)]
      rw [List.cons_append, List.take_append_drop]

theorem splitIntoBatches_flatten (maxB : ℕ) (segments : List TranscriptSegment) :
    (splitIntoBatches maxB segments).flatten = segments := by
  unfold splitIntoBatches
  split
  · simp
  · exact chunkBatches_flatten_aux maxB segments.length segments le_rfl

/-- What one batch contributes to the cleaned list: the parsed LLM output on
success, the batch's own segments converted by `toCleaned` on failure. -/
def batchOutput (resps : List (Option (Option (List CleanedSegment))))
    (p : ℕ × List TranscriptSegment) : List CleanedSegment :=
  match processBatchM p.2 (resps.getD p.1 none) with
  | .error _ => p.2.map toCleaned
  | .ok cleaned => cleaned

/-- The batch loop of `ProcessTranscript` accumulates exactly the
concatenation of the per-batch outputs (fallbacks included). -/
theorem foldl_batches_eq_flatMap (resps : List (Option (Option (List CleanedSegment)))) :
    ∀ (l : List (ℕ × List TranscriptSegment)) (acc : List CleanedSegment),
      (l.foldl
        (fun acc p =>
          match processBatchM p.2 (resps.getD p.1 none) with
          | .error _ => acc ++ p.2.map toCleaned
          | .ok cleaned => acc ++ cleaned)
        acc) = acc ++ l.flatMap (batchOutput resps) := by
  intro l
  induction l with
  | nil => intro acc; simp
  | cons p rest ih =>
    intro acc
    rw [List.foldl_cons, ih, List.flatMap_cons, ← List.append_assoc]
    congr 1
    unfold batchOutput
    cases h : processBatchM p.2 (resps.getD p.1 none) <;> rfl

/-- Each batch contributes at most as many cleaned segments as it holds. -/
theorem batchOutput_length_le (resps : List (Option (Option (List CleanedSegment))))
    (p : ℕ × List TranscriptSegment) :
    (batchOutput resps p).length ≤ p.2.length := by
  unfold batchOutput
  cases h : processBatchM p.2 (resps.getD p.1 none) with
  | error e => simp
  | ok cleaned =>
    unfold processBatchM at h
    cases hr : resps.getD p.1 none with
    | none => rw [hr] at h; simp at h
    | some parsed =>
      rw [hr] at h
      have := parseCleanupResponse_ok_length parsed (p.2.map toCleaned) cleaned h
      simpa using this

theorem flatMap_length_le {α β γ : Type} (g : β → List α) (f : β → List γ)
    (l : List β) (h : ∀ x ∈ l, (g x).length ≤ (f x).length) :
    (l.flatMap g).length ≤ (l.flatMap f).length := by
  induction l with
  | nil => simp
  | cons x xs ih =>
    simp only [List.flatMap_cons, List.length_append]
    have h1 := h x (List.mem_cons_self x xs)
    have h2 := ih (fun y hy => h y (List.mem_cons_of_mem x hy))
    omega

/-! ## Claim C4 -/

/-- **C4, amended** — For every post-processed transcript the output segment
count is at most the input segment count.  The time envelope is *not*
enforced: the accepted LLM response's timestamps are used verbatim
(`mapPremergedSegments` keeps the LLM segments directly), so the minimum
start / maximum end of a batch are preserved only when the LLM preserves
them. -/
theorem C4_segment_count_bound (enabled : Bool) (model : String)
    (result : TranscriptResult) (resps : List (Option (Option (List CleanedSegment)))) :
    (ProcessTranscript enabled model result resps).segments.length ≤
      result.segments.length := by
  unfold ProcessTranscript
  split
  · exact le_rfl
  · split
    · exact le_rfl
    · dsimp only
      rw [foldl_batches_eq_flatMap, List.nil_append]
      set batches := splitIntoBatches DefaultMaxSegmentsPerBatch result.segments with hb
      calc (ApplyMerges (batches.enum.flatMap (batchOutput resps))).length
          ≤ (batches.enum.flatMap (batchOutput resps)).length := ApplyMerges_length_le _
        _ ≤ (batches.enum.flatMap (fun p => p.2)).length := by
            exact flatMap_length_le _ _ _ (fun x _ => batchOutput_length_le resps x)
        _ = result.segments.length := by
            rw [List.flatMap_def]
            have : batches.enum.map (fun p => p.2) = batches := by
              rw [show (fun p : ℕ × List TranscriptSegment => p.2) = Prod.snd from rfl]
              exact List.enum_map_snd batches
            rw [this, hb, splitIntoBatches_flatten]

/-- The one-segment transcript used by the C4 counterexample. -/
def envInputResult : TranscriptResult :=
  { text := "hi", language := "", segments := [⟨0, 10, "hi", some "A", none⟩],
    wordSegments := [], confidence := 0, processingTime := 0, modelUsed := "",
    metadata := [] }

/-- The LLM response used by the C4 counterexample: same segment count, but
timestamps `[5, 7]` instead of the batch envelope `[0, 10]`. -/
def envLLMResps : List (Option (Option (List CleanedSegment))) :=
  [some (some [⟨"x", "A", 5, 7, false⟩])]

/-- **C4, counterexample** — an accepted equal-count LLM response with moved
timestamps: the post-processed segment starts at `5` and ends at `7`, while the
input batch starts at `0` and ends at `10`; the minimum start and maximum end
of the batch are not preserved, refuting the claimed envelope invariant. -/
theorem C4_counterexample :
    (ProcessTranscript true "m" envInputResult envLLMResps).segments.map
        TranscriptSegment.start = [5] ∧
    envInputResult.segments.map TranscriptSegment.start = [0] ∧
    (ProcessTranscript true "m" envInputResult envLLMResps).segments.map
        TranscriptSegment.endT = [7] ∧
    envInputResult.segments.map TranscriptSegment.endT = [10] ∧
    ((5 : ℚ) ≠ 0 ∧ (7 : ℚ) ≠ 10) := by
  have hseg : (ProcessTranscript true "m" envInputResult envLLMResps).segments =
      [⟨5, 7, "x", some "A", none⟩] := by
    unfold ProcessTranscript envInputResult envLLMResps
    simp +decide [splitIntoBatches, DefaultMaxSegmentsPerBatch, List.enum, List.enumFrom,
      processBatchM, parseCleanupResponse, toCleaned, ApplyMerges, applyMergesGo]
  refine ⟨by rw [hseg]; rfl, rfl, by rw [hseg]; rfl, rfl, by norm_num, by norm_num⟩

/-! ## Claim C7 -/

/-- **C7** — LLM cleanup error handling: (1) invalid JSON fails; (2) a parsed
array with more elements than the batch input fails with the
`segment count increased` error; (3) an array with equal or fewer elements is
accepted; (4) inside `ProcessTranscript`, every batch whose LLM call or parse
fails contributes its own original segments (converted to `CleanedSegment`
form) to the cleaned list at its position, and the post-processing call still
returns a result (the model of `ProcessTranscript` is total). -/
theorem C7_parse_errors_and_batch_fallback :
    (∀ orig : List CleanedSegment, parseCleanupResponse none orig = .error "invalid JSON") ∧
    (∀ segs orig : List CleanedSegment, orig.length < segs.length →
      parseCleanupResponse (some segs) orig =
        .error ("segment count increased: expected <= " ++ toString orig.length ++
          ", got " ++ toString segs.length)) ∧
    (∀ segs orig : List CleanedSegment, segs.length ≤ orig.length →
      ∃ out, parseCleanupResponse (some segs) orig = .ok out) ∧
    (∀ (model : String) (result : TranscriptResult)
        (resps : List (Option (Option (List CleanedSegment)))),
      result.segments ≠ [] →
      (ProcessTranscript true model result resps).segments =
        ApplyMerges
          ((splitIntoBatches DefaultMaxSegmentsPerBatch result.segments).enum.flatMap
            (batchOutput resps))) := by
  refine ⟨fun orig => rfl, ?_, ?_, ?_⟩
  · intro segs orig h
    unfold parseCleanupResponse
    dsimp only
    rw [if_pos h]
  · intro segs orig h
    unfold parseCleanupResponse
    dsimp only
    rw [if_neg (by omega)]
    by_cases he : segs.length = orig.length
    · rw [if_pos he]; exact ⟨segs, rfl⟩
    · rw [if_neg he]; exact ⟨_, rfl⟩
  · intro model result resps hne
    unfold ProcessTranscript
    rw [if_neg (by simp), if_neg (by simpa using hne)]
    dsimp only
    rw [foldl_batches_eq_flatMap, List.nil_append]

/-- Witness for `C7_parse_errors_and_batch_fallback` at concrete inputs: a
two-element response against a one-element batch is rejected with the exact
error message, an equal-count response is accepted, and a failing batch
(`resps = []`, i.e. the request failed) leaves the original segment (converted)
in the output. -/
theorem C7_witness :
    parseCleanupResponse none [] = .error "invalid JSON" ∧
    parseCleanupResponse (some [⟨"a", "A", 0, 1, false⟩, ⟨"b", "A", 1, 2, false⟩])
        [⟨"ab", "A", 0, 2, false⟩] =
      .error "segment count increased: expected <= 1, got 2" ∧
    (∃ out, parseCleanupResponse (some [⟨"ab!", "A", 0, 2, false⟩])
        [⟨"ab", "A", 0, 2, false⟩] = .ok out) ∧
    (ProcessTranscript true "m" envInputResult []).segments =
      ApplyMerges
        ((splitIntoBatches DefaultMaxSegmentsPerBatch envInputResult.segments).enum.flatMap
          (batchOutput [])) := by
  refine ⟨C7_parse_errors_and_batch_fallback.1 [], ?_, ?_, ?_⟩
  · rw [C7_parse_errors_and_batch_fallback.2.1
      [⟨"a", "A", 0, 1, false⟩, ⟨"b", "A", 1, 2, false⟩] [⟨"ab", "A", 0, 2, false⟩]
      (by norm_num)]
    rfl
  · exact C7_parse_errors_and_batch_fallback.2.2.1 [⟨"ab!", "A", 0, 2, false⟩]
      [⟨"ab", "A", 0, 2, false⟩] (by norm_num)
  · exact C7_parse_errors_and_batch_fallback.2.2.2 "m" envInputResult [] (by simp [envInputResult])

/-! ## Claim C6 -/

/-- One unrolling of the retry loop for an attempt within bounds. -/
theorem retryLoop_step (f : ℕ → AttemptResult) (c : ℕ → Bool) (a : ℕ) (h : ¬ a > 3) :
    retryLoop f c a = match f a with
      | .ok => ⟨[a], [], .success a⟩
      | .err msg =>
        if ¬ isRetryableMsg msg ∨ a = 3 then ⟨[a], [], .failed a msg⟩
        else if c a then ⟨[a], [], .cancelled a⟩
        else ⟨a :: (retryLoop f c (a + 1)).attempts,
          ((a * a : ℕ) : ℚ) * 5 :: (retryLoop f c (a + 1)).backoffs,
          (retryLoop f c (a + 1)).outcome⟩ := by
  rw [retryLoop]
  rw [dif_neg h]

example (f : ℕ → AttemptResult) (c : ℕ → Bool) (m : String) (h1 : f 1 = .err m)
    (hr : isRetryableMsg m = false) : retryLoop f c 1 = ⟨[1], [], .failed 1 m⟩ := by
  rw [retryLoop_step f c 1 (by norm_num), h1]
  simp [hr]

/-- **C6** — the retry policy of the remote adapter: at most three attempts
are issued, issued attempts are consecutive from 1; the backoff that follows
attempt `k` (when a retry follows) is `k² · 5` seconds; attempt `k + 1` is
issued iff attempt `k` failed with a retryable message, `k < 3`, and the
context was not cancelled during the backoff; a non-retryable failure (and a
failure at the third attempt) ends the loop with that error immediately; and
cancellation during the backoff ends the loop with the cancellation
outcome. -/
theorem C6_retry_policy (f : ℕ → AttemptResult) (c : ℕ → Bool) :
    (retryLoop f c 1).attempts.length ≤ 3 ∧
    (retryLoop f c 1).attempts = List.range' 1 (retryLoop f c 1).attempts.length ∧
    (retryLoop f c 1).backoffs =
      (retryLoop f c 1).attempts.dropLast.map (fun k => ((k * k : ℕ) : ℚ) * 5) ∧
    (∀ k, 1 ≤ k →
      ((k + 1) ∈ (retryLoop f c 1).attempts ↔
        k ∈ (retryLoop f c 1).attempts ∧ k < 3 ∧
          (∃ msg, f k = .err msg ∧ isRetryableMsg msg = true) ∧ c k = false)) ∧
    (∀ k msg, k ∈ (retryLoop f c 1).attempts → f k = .err msg →
      isRetryableMsg msg = false → (retryLoop f c 1).outcome = .failed k msg) ∧
    (∀ msg, 3 ∈ (retryLoop f c 1).attempts → f 3 = .err msg →
      (retryLoop f c 1).outcome = .failed 3 msg) ∧
    (∀ k msg, k ∈ (retryLoop f c 1).attempts → k < 3 → f k = .err msg →
      isRetryableMsg msg = true → c k = true →
      (retryLoop f c 1).outcome = .cancelled k) := by
  rcases h1 : f 1 with _ | m1
  · -- attempt 1 succeeded
    have ht : retryLoop f c 1 = ⟨[1], [], .success 1⟩ := by
      rw [retryLoop_step f c 1 (by norm_num), h1]
    rw [ht]
    refine ⟨by simp, by simp [List.range'], by simp, ?_, ?_, ?_, ?_⟩
    · intro k hk
      simp only [List.mem_singleton]
      constructor
      · intro h; omega
      · rintro ⟨hkmem, -, ⟨msg, hmsg, -⟩, -⟩
        subst hkmem; rw [h1] at hmsg; exact absurd hmsg (by simp)
    · intro k msg hk hmsg hret
      simp only [List.mem_singleton] at hk; subst hk
      rw [h1] at hmsg; exact absurd hmsg (by simp)
    · intro msg h3 hmsg
      simp at h3
    · intro k msg hk hk3 hmsg hret hc
      simp only [List.mem_singleton] at hk; subst hk
      rw [h1] at hmsg; exact absurd hmsg (by simp)
  · by_cases hr1 : isRetryableMsg m1 = true
    · by_cases hc1 : c 1 = true
      · -- retryable failure at attempt 1, cancelled during backoff
        have ht : retryLoop f c 1 = ⟨[1], [], .cancelled 1⟩ := by
          rw [retryLoop_step f c 1 (by norm_num), h1]
          dsimp only
          rw [if_neg (by simp [hr1]), if_pos hc1]
        rw [ht]
        refine ⟨by simp, by simp [List.range'], by simp, ?_, ?_, ?_, ?_⟩
        · intro k hk
          simp only [List.mem_singleton]
          constructor
          · intro h; omega
          · rintro ⟨hkmem, -, -, hck⟩
            subst hkmem; rw [hc1] at hck; exact absurd hck (by simp)
        · intro k msg hk hmsg hret
          simp only [List.mem_singleton] at hk; subst hk
          rw [h1] at hmsg
          rw [AttemptResult.err.injEq] at hmsg
          subst hmsg; rw [hr1] at hret; exact absurd hret (by simp)
        · intro msg h3 hmsg
          simp at h3
        · intro k msg hk hk3 hmsg hret hc
          simp only [List.mem_singleton] at hk; subst hk
          rfl
      · -- retryable failure at attempt 1, backoff completed, retry
        have hstep1 : retryLoop f c 1 =
            ⟨1 :: (retryLoop f c 2).attempts,
              ((1 * 1 : ℕ) : ℚ) * 5 :: (retryLoop f c 2).backoffs,
              (retryLoop f c 2).outcome⟩ := by
          rw [retryLoop_step f c 1 (by norm_num), h1]
          dsimp only
          rw [if_neg (by simp [hr1]), if_neg hc1]
        rcases h2 : f 2 with _ | m2
        · -- attempt 2 succeeded
          have ht : retryLoop f c 1 = ⟨[1, 2], [((1 * 1 : ℕ) : ℚ) * 5], .success 2⟩ := by
            rw [hstep1, retryLoop_step f c 2 (by norm_num), h2]
          rw [ht]
          refine ⟨by simp, by simp [List.range'], by norm_num, ?_, ?_, ?_, ?_⟩
          · intro k hk
            simp only [List.mem_cons, List.mem_singleton, List.not_mem_nil, or_false]
            constructor
            · intro h
              have hk1 : k = 1 := by omega
              subst hk1
              exact ⟨Or.inl rfl, by norm_num, ⟨m1, h1, hr1⟩, by simpa using hc1⟩
            · rintro ⟨hkmem, hk3, ⟨msg, hmsg, hret⟩, hck⟩
              rcases hkmem with h | h
              · subst h; norm_num
              · subst h; rw [h2] at hmsg; exact absurd hmsg (by simp)
          · intro k msg hk hmsg hret
            simp only [List.mem_cons, List.mem_singleton, List.not_mem_nil, or_false] at hk
            rcases hk with h | h
            · subst h; rw [h1] at hmsg
              rw [AttemptResult.err.injEq] at hmsg
              subst hmsg; rw [hr1] at hret; exact absurd hret (by simp)
            · subst h; rw [h2] at hmsg; exact absurd hmsg (by simp)
          · intro msg h3 hmsg
            simp at h3
          · intro k msg hk hk3 hmsg hret hc
            simp only [List.mem_cons, List.mem_singleton, List.not_mem_nil, or_false] at hk
            rcases hk with h | h
            · subst h; rw [hc] at hc1; exact absurd rfl hc1
            · subst h; rw [h2] at hmsg; exact absurd hmsg (by simp)
        · by_cases hr2 : isRetryableMsg m2 = true
          · by_cases hc2 : c 2 = true
            · -- retryable failure at attempt 2, cancelled during backoff
              have ht : retryLoop f c 1 =
                  ⟨[1, 2], [((1 * 1 : ℕ) : ℚ) * 5], .cancelled 2⟩ := by
                rw [hstep1, retryLoop_step f c 2 (by norm_num), h2]
                dsimp only
                rw [if_neg (by simp [hr2]), if_pos hc2]
              rw [ht]
              refine ⟨by simp, by simp [List.range'], by norm_num, ?_, ?_, ?_, ?_⟩
              · intro k hk
                simp only [List.mem_cons, List.mem_singleton, List.not_mem_nil, or_false]
                constructor
                · intro h
                  have hk1 : k = 1 := by omega
                  subst hk1
                  exact ⟨Or.inl rfl, by norm_num, ⟨m1, h1, hr1⟩, by simpa using hc1⟩
                · rintro ⟨hkmem, hk3, ⟨msg, hmsg, hret⟩, hck⟩
                  rcases hkmem with h | h
                  · subst h; norm_num
                  · subst h; rw [hc2] at hck; exact absurd hck (by simp)
              · intro k msg hk hmsg hret
                simp only [List.mem_cons, List.mem_singleton, List.not_mem_nil, or_false] at hk
                rcases hk with h | h
                · subst h; rw [h1] at hmsg
                  rw [AttemptResult.err.injEq] at hmsg
                  subst hmsg; rw [hr1] at hret; exact absurd hret (by simp)
                · subst h; rw [h2] at hmsg
                  rw [AttemptResult.err.injEq] at hmsg
                  subst hmsg; rw [hr2] at hret; exact absurd hret (by simp)
              · intro msg h3 hmsg
                simp at h3
              · intro k msg hk hk3 hmsg hret hc
                simp only [List.mem_cons, List.mem_singleton, List.not_mem_nil, or_false] at hk
                rcases hk with h | h
                · subst h; rw [hc] at hc1; exact absurd rfl hc1
                · subst h; rfl
            · -- retryable failure at attempt 2, backoff completed, retry
              have hstep2 : retryLoop f c 1 =
                  ⟨1 :: 2 :: (retryLoop f c 3).attempts,
                    ((1 * 1 : ℕ) : ℚ) * 5 :: ((2 * 2 : ℕ) : ℚ) * 5 ::
                      (retryLoop f c 3).backoffs,
                    (retryLoop f c 3).outcome⟩ := by
                rw [hstep1, retryLoop_step f c 2 (by norm_num), h2]
                dsimp only
                rw [if_neg (by simp [hr2]), if_neg hc2]
              rcases h3 : f 3 with _ | m3
              · -- attempt 3 succeeded
                have ht : retryLoop f c 1 =
                    ⟨[1, 2, 3], [((1 * 1 : ℕ) : ℚ) * 5, ((2 * 2 : ℕ) : ℚ) * 5],
                      .success 3⟩ := by
                  rw [hstep2, retryLoop_step f c 3 (by norm_num), h3]
                rw [ht]
                refine ⟨by simp, by simp [List.range'], by norm_num, ?_, ?_, ?_, ?_⟩
                · intro k hk
                  simp only [List.mem_cons, List.mem_singleton, List.not_mem_nil, or_false]
                  constructor
                  · intro h
                    have hk12 : k = 1 ∨ k = 2 := by omega
                    rcases hk12 with h' | h'
                    · subst h'
                      exact ⟨Or.inl rfl, by norm_num, ⟨m1, h1, hr1⟩, by simpa using hc1⟩
                    · subst h'
                      exact ⟨Or.inr (Or.inl rfl), by norm_num, ⟨m2, h2, hr2⟩,
                        by simpa using hc2⟩
                  · rintro ⟨hkmem, hk3, ⟨msg, hmsg, hret⟩, hck⟩
                    rcases hkmem with h | h | h
                    · subst h; norm_num
                    · subst h; norm_num
                    · subst h; omega
                · intro k msg hk hmsg hret
                  simp only [List.mem_cons, List.mem_singleton, List.not_mem_nil, or_false] at hk
                  rcases hk with h | h | h
                  · subst h; rw [h1] at hmsg
                    rw [AttemptResult.err.injEq] at hmsg
                    subst hmsg; rw [hr1] at hret; exact absurd hret (by simp)
                  · subst h; rw [h2] at hmsg
                    rw [AttemptResult.err.injEq] at hmsg
                    subst hmsg; rw [hr2] at hret; exact absurd hret (by simp)
                  · subst h; rw [h3] at hmsg; exact absurd hmsg (by simp)
                · intro msg h3mem hmsg
                  exact absurd hmsg (by simp)
                · intro k msg hk hk3 hmsg hret hc
                  simp only [List.mem_cons, List.mem_singleton, List.not_mem_nil, or_false] at hk
                  rcases hk with h | h | h
                  · subst h; rw [hc] at hc1; exact absurd rfl hc1
                  · subst h; rw [hc] at hc2; exact absurd rfl hc2
                  · subst h; omega
              · -- attempt 3 failed: retries exhausted
                have ht : retryLoop f c 1 =
                    ⟨[1, 2, 3], [((1 * 1 : ℕ) : ℚ) * 5, ((2 * 2 : ℕ) : ℚ) * 5],
                      .failed 3 m3⟩ := by
                  rw [hstep2, retryLoop_step f c 3 (by norm_num), h3]
                  dsimp only
                  rw [if_pos (Or.inr rfl)]
                rw [ht]
                refine ⟨by simp, by simp [List.range'], by norm_num, ?_, ?_, ?_, ?_⟩
                · intro k hk
                  simp only [List.mem_cons, List.mem_singleton, List.not_mem_nil, or_false]
                  constructor
                  · intro h
                    have hk12 : k = 1 ∨ k = 2 := by omega
                    rcases hk12 with h' | h'
                    · subst h'
                      exact ⟨Or.inl rfl, by norm_num, ⟨m1, h1, hr1⟩, by simpa using hc1⟩
                    · subst h'
                      exact ⟨Or.inr (Or.inl rfl), by norm_num, ⟨m2, h2, hr2⟩,
                        by simpa using hc2⟩
                  · rintro ⟨hkmem, hk3, ⟨msg, hmsg, hret⟩, hck⟩
                    rcases hkmem with h | h | h
                    · subst h; norm_num
                    · subst h; norm_num
                    · subst h; omega
                · intro k msg hk hmsg hret
                  simp only [List.mem_cons, List.mem_singleton, List.not_mem_nil, or_false] at hk
                  rcases hk with h | h | h
                  · subst h; rw [h1] at hmsg
                    rw [AttemptResult.err.injEq] at hmsg
                    subst hmsg; rw [hr1] at hret; exact absurd hret (by simp)
                  · subst h; rw [h2] at hmsg
                    rw [AttemptResult.err.injEq] at hmsg
                    subst hmsg; rw [hr2] at hret; exact absurd hret (by simp)
                  · subst h; rw [h3] at hmsg
                    rw [AttemptResult.err.injEq] at hmsg
                    subst hmsg; rfl
                · intro msg h3mem hmsg
                  rw [AttemptResult.err.injEq] at hmsg
                  subst hmsg; rfl
                · intro k msg hk hk3 hmsg hret hc
                  simp only [List.mem_cons, List.mem_singleton, List.not_mem_nil, or_false] at hk
                  rcases hk with h | h | h
                  · subst h; rw [hc] at hc1; exact absurd rfl hc1
                  · subst h; rw [hc] at hc2; exact absurd rfl hc2
                  · subst h; omega
          · -- non-retryable failure at attempt 2
            have ht : retryLoop f c 1 =
                ⟨[1, 2], [((1 * 1 : ℕ) : ℚ) * 5], .failed 2 m2⟩ := by
              rw [hstep1, retryLoop_step f c 2 (by norm_num), h2]
              dsimp only
              rw [if_pos (Or.inl hr2)]
            rw [ht]
            refine ⟨by simp, by simp [List.range'], by norm_num, ?_, ?_, ?_, ?_⟩
            · intro k hk
              simp only [List.mem_cons, List.mem_singleton, List.not_mem_nil, or_false]
              constructor
              · intro h
                have hk1 : k = 1 := by omega
                subst hk1
                exact ⟨Or.inl rfl, by norm_num, ⟨m1, h1, hr1⟩, by simpa using hc1⟩
              · rintro ⟨hkmem, hk3, ⟨msg, hmsg, hret⟩, hck⟩
                rcases hkmem with h | h
                · subst h; norm_num
                · subst h; rw [h2] at hmsg
                  rw [AttemptResult.err.injEq] at hmsg
                  subst hmsg; rw [hret] at hr2; exact absurd rfl hr2
            · intro k msg hk hmsg hret
              simp only [List.mem_cons, List.mem_singleton, List.not_mem_nil, or_false] at hk
              rcases hk with h | h
              · subst h; rw [h1] at hmsg
                rw [AttemptResult.err.injEq] at hmsg
                subst hmsg; rw [hr1] at hret; exact absurd hret (by simp)
              · subst h; rw [h2] at hmsg
                rw [AttemptResult.err.injEq] at hmsg
                subst hmsg; rfl
            · intro msg h3 hmsg
              simp at h3
            · intro k msg hk hk3 hmsg hret hc
              simp only [List.mem_cons, List.mem_singleton, List.not_mem_nil, or_false] at hk
              rcases hk with h | h
              · subst h; rw [hc] at hc1; exact absurd rfl hc1
              · subst h; rw [h2] at hmsg
                rw [AttemptResult.err.injEq] at hmsg
                subst hmsg; exact absurd hret hr2
    · -- non-retryable failure at attempt 1
      have ht : retryLoop f c 1 = ⟨[1], [], .failed 1 m1⟩ := by
        rw [retryLoop_step f c 1 (by norm_num), h1]
        dsimp only
        rw [if_pos (Or.inl hr1)]
      rw [ht]
      refine ⟨by simp, by simp [List.range'], by simp, ?_, ?_, ?_, ?_⟩
      · intro k hk
        simp only [List.mem_singleton]
        constructor
        · intro h; omega
        · rintro ⟨hkmem, -, ⟨msg, hmsg, hret⟩, -⟩
          subst hkmem; rw [h1] at hmsg
          rw [AttemptResult.err.injEq] at hmsg
          subst hmsg; rw [hret] at hr1; exact absurd rfl hr1
      · intro k msg hk hmsg hret
        simp only [List.mem_singleton] at hk; subst hk
        rw [h1] at hmsg
        rw [AttemptResult.err.injEq] at hmsg
        subst hmsg; rfl
      · intro msg h3 hmsg
        simp at h3
      · intro k msg hk hk3 hmsg hret hc
        simp only [List.mem_singleton] at hk; subst hk
        rw [h1] at hmsg
        rw [AttemptResult.err.injEq] at hmsg
        subst hmsg; exact absurd hret hr1

/-- Attempt oracle for the C6 witness: a retryable `EOF` failure on the first
attempt, success on the second. -/
def egF : ℕ → AttemptResult := fun k => if k = 1 then .err "unexpected EOF" else .ok

/-- Cancellation oracle for the C6 witness: never cancelled. -/
def egC : ℕ → Bool := fun _ => false

/-- Witness for `C6_retry_policy`: with a retryable first-attempt failure and
no cancellation, the bound, the backoff shape, and the retried-iff-retryable
direction are realized concretely (attempt 2 is issued). -/
theorem C6_witness :
    (retryLoop egF egC 1).attempts.length ≤ 3 ∧
    (retryLoop egF egC 1).backoffs =
      (retryLoop egF egC 1).attempts.dropLast.map (fun k => ((k * k : ℕ) : ℚ) * 5) ∧
    (1 + 1) ∈ (retryLoop egF egC 1).attempts := by
  have ht : retryLoop egF egC 1 =
      ⟨[1, 2], [((1 * 1 : ℕ) : ℚ) * 5], .success 2⟩ := by
    rw [retryLoop_step egF egC 1 (by norm_num)]
    rw [show egF 1 = AttemptResult.err "unexpected EOF" from rfl]
    dsimp only
    rw [if_neg (by decide), if_neg (by decide)]
    rw [retryLoop_step egF egC 2 (by norm_num)]
    rw [show egF 2 = AttemptResult.ok from rfl]
  have h1mem : 1 ∈ (retryLoop egF egC 1).attempts := by rw [ht]; simp
  exact ⟨(C6_retry_policy egF egC).1, (C6_retry_policy egF egC).2.2.1,
    ((C6_retry_policy egF egC).2.2.2.1 1 (by norm_num)).mpr
      ⟨h1mem, by norm_num, ⟨"unexpected EOF", rfl, by decide⟩, rfl⟩⟩

/-! ## Ordering of the merged timeline -/

/-- The default value used to state facts about `chunks[i]` without a bound
proof; never the value actually read when the index is in range. -/
def defaultChunk : ChunkInfo := ⟨"", 0, 0, 0⟩

theorem getD_of_mem_enum {α : Type} {l : List α} {i : ℕ} {x : α} (d : α)
    (h : (i, x) ∈ l.enum) : l.getD i d = x := by
  obtain ⟨hi, hx⟩ := List.mem_enum h
  rw [List.getD_eq_getElem?_getD, List.getElem?_eq_getElem hi]
  simp [hx]

theorem fst_lt_length_of_mem_enum {α : Type} {l : List α} {i : ℕ} {x : α}
    (h : (i, x) ∈ l.enum) : i < l.length :=
  (List.mem_enum h).1

theorem pairwise_fst_lt_enumFrom {α : Type} (l : List α) :
    ∀ k, List.Pairwise (fun p q : ℕ × α => p.1 < q.1) (l.enumFrom k) := by
  induction l with
  | nil => intro k; simp
  | cons x xs ih =>
    intro k
    rw [List.enumFrom_cons]
    refine List.Pairwise.cons ?_ (ih (k + 1))
    rintro ⟨j, y⟩ hq
    exact lt_of_lt_of_le (Nat.lt_succ_self k) (List.mem_enumFrom hq).1

theorem pairwise_fst_lt_enum {α : Type} (l : List α) :
    List.Pairwise (fun p q : ℕ × α => p.1 < q.1) l.enum :=
  pairwise_fst_lt_enumFrom l 0

/-- With contiguous offsets and nonnegative durations, a chunk ends no later
than any later chunk starts. -/
theorem chunk_startTime_mono (chunks : List ChunkInfo)
    (hcontig : ∀ i, i + 1 < chunks.length →
      (chunks.getD (i + 1) defaultChunk).startTime =
        (chunks.getD i defaultChunk).startTime + (chunks.getD i defaultChunk).duration)
    (hdur : ∀ c ∈ chunks, 0 ≤ c.duration) :
    ∀ i j, i < j → j < chunks.length →
      (chunks.getD i defaultChunk).startTime + (chunks.getD i defaultChunk).duration ≤
        (chunks.getD j defaultChunk).startTime := by
  intro i j
  induction j with
  | zero => omega
  | succ j ih =>
    intro hij hj
    rcases Nat.lt_succ_iff_lt_or_eq.mp hij with h | h
    · have hj' : j < chunks.length := by omega
      have step := hcontig j (by omega)
      have hmem : chunks.getD j defaultChunk ∈ chunks := by
        rw [List.getD_eq_getElem?_getD, List.getElem?_eq_getElem hj']
        exact List.getElem_mem hj'
      have hdj := hdur _ hmem
      have hih := ih h hj'
      rw [step]
      linarith
    · subst h
      rw [hcontig i (by omega)]

/-- `offsetOf` agrees with the `getD` phrasing on in-range indices. -/
theorem offsetOf_eq_getD (chunks : List ChunkInfo) (i : ℕ) (h : i < chunks.length) :
    offsetOf chunks i = (chunks.getD i defaultChunk).startTime := by
  rw [offsetOf, dif_pos h, List.getD_eq_getElem?_getD, List.getElem?_eq_getElem h]
  rfl

/-- The merged segment stream is ordered by `start` whenever the chunk
offsets are contiguous, chunk durations are nonnegative, each result's
segments are ordered, and each result's segment starts lie within
`[0, chunk.duration]`. -/
theorem merged_segments_sorted (results : List (Option TranscriptResult))
    (chunks : List ChunkInfo) (refs : Bool) (n : ℕ)
    (hlen : results.length = chunks.length)
    (hcontig : ∀ i, i + 1 < chunks.length →
      (chunks.getD (i + 1) defaultChunk).startTime =
        (chunks.getD i defaultChunk).startTime + (chunks.getD i defaultChunk).duration)
    (hdur : ∀ c ∈ chunks, 0 ≤ c.duration)
    (hbounds : ∀ i r, results.getD i none = some r →
      ∀ s ∈ r.segments, 0 ≤ s.start ∧ s.start ≤ (chunks.getD i defaultChunk).duration)
    (hsorted : ∀ i r, results.getD i none = some r →
      List.Pairwise (fun a b : TranscriptSegment => a.start ≤ b.start) r.segments) :
    List.Pairwise (fun a b : TranscriptSegment => a.start ≤ b.start)
      (results.enum.flatMap
        (fun p => (segsOfOpt p.2).map (adjustSegment chunks n refs p.1))) := by
  rw [List.flatMap_def, List.pairwise_flatten]
  constructor
  · intro bl hbl
    rw [List.mem_map] at hbl
    obtain ⟨⟨i, r⟩, hp, rfl⟩ := hbl
    cases r with
    | none => simp [segsOfOpt]
    | some tr =>
      rw [List.pairwise_map]
      have hg : results.getD i none = some tr := getD_of_mem_enum none hp
      refine (hsorted i tr hg).imp ?_
      intro a b hab
      simpa [adjustSegment] using add_le_add_right hab (offsetOf chunks i)
  · rw [List.pairwise_map]
    refine (pairwise_fst_lt_enum results).imp_of_mem ?_
    rintro ⟨i, rp⟩ ⟨j, rq⟩ hp hq hlt x hx y hy
    cases rp with
    | none => simp [segsOfOpt] at hx
    | some trp =>
      cases rq with
      | none => simp [segsOfOpt] at hy
      | some trq =>
        simp only [segsOfOpt, List.mem_map] at hx hy
        obtain ⟨x₀, hx₀, rfl⟩ := hx
        obtain ⟨y₀, hy₀, rfl⟩ := hy
        have hgi : results.getD i none = some trp := getD_of_mem_enum none hp
        have hgj : results.getD j none = some trq := getD_of_mem_enum none hq
        have hi : i < results.length := fst_lt_length_of_mem_enum hp
        have hj : j < results.length := fst_lt_length_of_mem_enum hq
        have hbx := hbounds i trp hgi x₀ hx₀
        have hby := hbounds j trq hgj y₀ hy₀
        have hmono := chunk_startTime_mono chunks hcontig hdur i j hlt (hlen ▸ hj)
        have hoi := offsetOf_eq_getD chunks i (hlen ▸ hi)
        have hoj := offsetOf_eq_getD chunks j (hlen ▸ hj)
        simp only [adjustSegment]
        rw [hoi, hoj]
        linarith [hbx.2, hby.1]

/-! ## Claim C1 -/

/-- **C1, amended** — For every merge of more than one result (with one
chunk per result), `MergeResults` returns a result whose segment and word
lists are the in-order concatenations of the inputs' segments and words,
each shifted by `chunks[i].start_time` for its result index `i` (`nil`
results contribute nothing), and the total segment count is preserved —
unconditionally, for arbitrary input segments.  The merged segments are
ordered by start under the preconditions that chunk offsets are contiguous,
chunk durations are nonnegative, each input's segments are ordered by start,
**and each input's segment starts lie within `[0, its chunk's duration]`**
(the last precondition is the one the original claim lacks). -/
theorem C1_merge_concatenation_and_order (results : List (Option TranscriptResult))
    (chunks : List ChunkInfo) (refs : Bool)
    (hn : 1 < results.length)
    (hlen : results.length = chunks.length) :
    ∃ m, MergeResults results chunks refs = some m ∧
      m.segments = results.enum.flatMap (fun p => (segsOfOpt p.2).map (fun s =>
        { start := s.start + (chunks.getD p.1 defaultChunk).startTime
          endT := s.endT + (chunks.getD p.1 defaultChunk).startTime
          text := s.text
          speaker := adjustSpeakerLabel s.speaker p.1 results.length refs
          language := s.language })) ∧
      m.wordSegments = results.enum.flatMap (fun p => (wordsOfOpt p.2).map (fun w =>
        { start := w.start + (chunks.getD p.1 defaultChunk).startTime
          endT := w.endT + (chunks.getD p.1 defaultChunk).startTime
          word := w.word
          score := w.score
          speaker := adjustSpeakerLabel w.speaker p.1 results.length refs })) ∧
      m.segments.length = (results.map (fun r => (segsOfOpt r).length)).sum ∧
      ((∀ i, i + 1 < chunks.length →
          (chunks.getD (i + 1) defaultChunk).startTime =
            (chunks.getD i defaultChunk).startTime + (chunks.getD i defaultChunk).duration) →
        (∀ c ∈ chunks, 0 ≤ c.duration) →
        (∀ i r, results.getD i none = some r →
          ∀ s ∈ r.segments, 0 ≤ s.start ∧ s.start ≤ (chunks.getD i defaultChunk).duration) →
        (∀ i r, results.getD i none = some r →
          List.Pairwise (fun a b : TranscriptSegment => a.start ≤ b.start) r.segments) →
        List.Pairwise (fun a b : TranscriptSegment => a.start ≤ b.start) m.segments) := by
  obtain ⟨a, b, t, rfl⟩ : ∃ a b t, results = a :: b :: t := by
    match results, hn with
    | a :: b :: t, _ => exact ⟨a, b, t, rfl⟩
  have hadj : ∀ p ∈ (a :: b :: t).enum,
      (segsOfOpt p.2).map (adjustSegment chunks (a :: b :: t).length refs p.1) =
        (segsOfOpt p.2).map (fun s =>
          { start := s.start + (chunks.getD p.1 defaultChunk).startTime
            endT := s.endT + (chunks.getD p.1 defaultChunk).startTime
            text := s.text
            speaker := adjustSpeakerLabel s.speaker p.1 (a :: b :: t).length refs
            language := s.language }) := by
    intro p hp
    refine List.map_congr_left (fun s _ => ?_)
    rw [adjustSegment, offsetOf_eq_getD chunks p.1 (hlen ▸ fst_lt_length_of_mem_enum
      ((show (p.1, p.2) = p from rfl) ▸ hp))]
  have hadjW : ∀ p ∈ (a :: b :: t).enum,
      (wordsOfOpt p.2).map (adjustWord chunks (a :: b :: t).length refs p.1) =
        (wordsOfOpt p.2).map (fun w =>
          { start := w.start + (chunks.getD p.1 defaultChunk).startTime
            endT := w.endT + (chunks.getD p.1 defaultChunk).startTime
            word := w.word
            score := w.score
            speaker := adjustSpeakerLabel w.speaker p.1 (a :: b :: t).length refs }) := by
    intro p hp
    refine List.map_congr_left (fun w _ => ?_)
    rw [adjustWord, offsetOf_eq_getD chunks p.1 (hlen ▸ fst_lt_length_of_mem_enum
      ((show (p.1, p.2) = p from rfl) ▸ hp))]
  rw [MergeResults_cons_cons]
  refine ⟨_, rfl, ?_, ?_, ?_, ?_⟩
  · dsimp only
    rw [foldl_mergeStep_segments, initMergeState, List.nil_append,
      List.flatMap_def, List.flatMap_def]
    exact congrArg List.flatten (List.map_congr_left hadj)
  · dsimp only
    rw [foldl_mergeStep_words, initMergeState, List.nil_append,
      List.flatMap_def, List.flatMap_def]
    exact congrArg List.flatten (List.map_congr_left hadjW)
  · dsimp only
    rw [foldl_mergeStep_segments, initMergeState, List.nil_append,
      List.length_flatMap]
    congr 1
    have : (List.length ∘ fun p : ℕ × Option TranscriptResult =>
        (segsOfOpt p.2).map (adjustSegment chunks (a :: b :: t).length refs p.1)) =
        ((fun r => (segsOfOpt r).length) ∘ Prod.snd) := by
      funext p
      simp
    rw [this, ← List.map_map, List.enum_map_snd]
  · intro hcontig hdur hbounds hsorted
    dsimp only
    rw [foldl_mergeStep_segments, initMergeState, List.nil_append]
    exact merged_segments_sorted (a :: b :: t) chunks refs (a :: b :: t).length
      hlen hcontig hdur hbounds hsorted

/-- Chunk list for the C1 witness: two contiguous 10-second chunks. -/
def wChunks : List ChunkInfo := [⟨"c0", 0, 10, 0⟩, ⟨"c1", 10, 10, 1⟩]

/-- First chunk result for the C1 witness. -/
def wR0 : TranscriptResult :=
  { text := "one", language := "en", segments := [⟨0, 1, "a", some "A", none⟩],
    wordSegments := [⟨0, 1, "a", 1, some "A"⟩], confidence := 1, processingTime := 0,
    modelUsed := "m", metadata := [] }

/-- Second chunk result for the C1 witness. -/
def wR1 : TranscriptResult :=
  { text := "two", language := "", segments := [⟨2, 3, "b", some "B", none⟩],
    wordSegments := [], confidence := 0, processingTime := 0, modelUsed := "",
    metadata := [] }

/-- Witness for `C1_merge_concatenation_and_order` at a concrete two-chunk
input. -/
theorem C1_witness :
    ∃ m, MergeResults [some wR0, some wR1] wChunks true = some m ∧
      m.segments.length = 2 ∧
      List.Pairwise (fun a b : TranscriptSegment => a.start ≤ b.start) m.segments := by
  obtain ⟨m, h1, h2, h3, h4, h5⟩ :=
    C1_merge_concatenation_and_order [some wR0, some wR1] wChunks true
      (by norm_num)
      (by norm_num [wChunks])
  refine ⟨m, h1, ?_, ?_⟩
  · rw [h4]
    norm_num [segsOfOpt, wR0, wR1]
  · refine h5
      (by
        intro i hi
        simp [wChunks] at hi
        have hi0 : i = 0 := by omega
        subst hi0
        norm_num [wChunks, defaultChunk])
      (by
        intro c hc
        simp [wChunks] at hc
        rcases hc with rfl | rfl <;> norm_num)
      (by
        intro i r hr s hs
        rcases i with _ | _ | i
        · simp at hr
          subst hr
          simp [wR0] at hs
          subst hs
          norm_num [wChunks, defaultChunk]
        · simp at hr
          subst hr
          simp [wR1] at hs
          subst hs
          norm_num [wChunks, defaultChunk]
        · simp [List.getD] at hr)
      (by
        intro i r hr
        rcases i with _ | _ | i
        · simp at hr; subst hr; simp [wR0]
        · simp at hr; subst hr; simp [wR1]
        · simp [List.getD] at hr)

/-- Chunk list for the C1 counterexample: contiguous offsets `0, 10` with
durations `10, 5`. -/
def cexChunks : List ChunkInfo := [⟨"c0", 0, 10, 0⟩, ⟨"c1", 10, 5, 1⟩]

/-- First result of the C1 counterexample: a single (trivially ordered)
segment starting at `100`, far beyond its chunk's duration. -/
def cexR0 : TranscriptResult :=
  { text := "", language := "", segments := [⟨100, 101, "x", none, none⟩],
    wordSegments := [], confidence := 0, processingTime := 0, modelUsed := "",
    metadata := [] }

/-- Second result of the C1 counterexample: a single segment starting at `0`. -/
def cexR1 : TranscriptResult :=
  { text := "", language := "", segments := [⟨0, 1, "y", none, none⟩],
    wordSegments := [], confidence := 0, processingTime := 0, modelUsed := "",
    metadata := [] }

/-- **C1, counterexample** — the claim's stated preconditions (contiguous
chunk offsets, each input's segments ordered) hold at this input, yet the
merged segment starts are `[100, 10]`, which is not ordered by start: the
stated precondition is insufficient (a segment may start beyond its chunk's
duration). -/
theorem C1_counterexample :
    (cexChunks.getD 1 defaultChunk).startTime =
      (cexChunks.getD 0 defaultChunk).startTime + (cexChunks.getD 0 defaultChunk).duration ∧
    List.Pairwise (fun a b : TranscriptSegment => a.start ≤ b.start) cexR0.segments ∧
    List.Pairwise (fun a b : TranscriptSegment => a.start ≤ b.start) cexR1.segments ∧
    (MergeResults [some cexR0, some cexR1] cexChunks false).map
        (fun m => m.segments.map (fun s => s.start)) = some [100, 10] ∧
    ¬ ((100 : ℚ) ≤ 10) := by
  refine ⟨by norm_num [cexChunks, defaultChunk], by simp [cexR0], by simp [cexR1], ?_, by norm_num⟩
  rw [MergeResults_cons_cons]
  simp only [Option.map_some', Option.some.injEq]
  rw [foldl_mergeStep_segments, initMergeState, List.nil_append]
  simp [List.enum, List.enumFrom, segsOfOpt, adjustSegment, adjustSpeakerLabel, offsetOf,
    cexR0, cexR1, cexChunks]

/-! ## Claim C2 -/

/-- The spec's label rewrite for the no-references, more-than-one-chunk case,
written from the spec's words: rewrite each non-empty label `L` as
`"{chunk_index}-{L}"`, stripping a leading `"Speaker "` prefix from `L`
first; `nil` and empty labels pass through. -/
def specRewriteLabel (chunkIndex : ℕ) : Option String → Option String
  | none => none
  | some l =>
    if l = "" then some l
    else some (toString chunkIndex ++ "-" ++ strTrimStart l "Speaker ")

/-- With speaker references, `adjustSpeakerLabel` is the identity. -/
theorem adjustSpeakerLabel_refs_used (sp : Option String) (i n : ℕ) :
    adjustSpeakerLabel sp i n true = sp := by
  cases sp with
  | none => rfl
  | some s => by_cases h : s = "" <;> simp [adjustSpeakerLabel, h]

/-- Without speaker references and with more than one chunk,
`adjustSpeakerLabel` agrees with the spec's rewrite. -/
theorem adjustSpeakerLabel_no_refs (sp : Option String) (i n : ℕ) (hn : 1 < n) :
    adjustSpeakerLabel sp i n false = specRewriteLabel i sp := by
  cases sp with
  | none => rfl
  | some s =>
    by_cases h : s = "" <;> simp [adjustSpeakerLabel, specRewriteLabel, h, hn]

/-- **C2, amended** — For a merge of more than one result: with
`speaker_refs_used = true` every output segment and word label equals the
corresponding input label; with `speaker_refs_used = false` every label is
rewritten by the spec's rule (`nil`/empty pass through; non-empty `L` becomes
`"{i}-{L}"` with a leading `"Speaker "` stripped first).  Every such
rewritten non-empty label matches `^\d+-.*$`, and matches `^\d+-.+$` *unless*
`L` is exactly `"Speaker "` (whose stripped form is empty).  A single result
passes through unchanged. -/
theorem C2_speaker_label_rewrite (results : List (Option TranscriptResult))
    (chunks : List ChunkInfo) (refs : Bool) (hn : 1 < results.length) :
    ∃ m, MergeResults results chunks refs = some m ∧
      (refs = true →
        m.segments.map (fun s => s.speaker) =
          results.enum.flatMap (fun p => (segsOfOpt p.2).map (fun s => s.speaker)) ∧
        m.wordSegments.map (fun w => w.speaker) =
          results.enum.flatMap (fun p => (wordsOfOpt p.2).map (fun w => w.speaker))) ∧
      (refs = false →
        m.segments.map (fun s => s.speaker) =
          results.enum.flatMap (fun p =>
            (segsOfOpt p.2).map (fun s => specRewriteLabel p.1 s.speaker)) ∧
        m.wordSegments.map (fun w => w.speaker) =
          results.enum.flatMap (fun p =>
            (wordsOfOpt p.2).map (fun w => specRewriteLabel p.1 w.speaker))) ∧
      (∀ (i : ℕ) (l : String), l ≠ "" →
        ChunkTagLoose (toString i ++ "-" ++ strTrimStart l "Speaker ") ∧
          (strTrimStart l "Speaker " ≠ "" →
            ChunkTag (toString i ++ "-" ++ strTrimStart l "Speaker "))) ∧
      (∀ (r : Option TranscriptResult) (cs : List ChunkInfo) (b : Bool),
        MergeResults [r] cs b = r) := by
  obtain ⟨a, b, t, rfl⟩ : ∃ a b t, results = a :: b :: t := by
    match results, hn with
    | a :: b :: t, _ => exact ⟨a, b, t, rfl⟩
  rw [MergeResults_cons_cons]
  refine ⟨_, rfl, ?_, ?_, fun i l hl => ⟨(chunkTag_of_label i _).1, (chunkTag_of_label i _).2⟩,
    fun r cs bb => rfl⟩
  · intro hrefs
    subst hrefs
    constructor
    · dsimp only
      rw [foldl_mergeStep_segments, initMergeState, List.nil_append, List.map_flatMap,
        List.flatMap_def, List.flatMap_def]
      refine congrArg List.flatten (List.map_congr_left (fun p _ => ?_))
      rw [List.map_map]
      exact List.map_congr_left
        (fun s _ => adjustSpeakerLabel_refs_used s.speaker p.1 (a :: b :: t).length)
    · dsimp only
      rw [foldl_mergeStep_words, initMergeState, List.nil_append, List.map_flatMap,
        List.flatMap_def, List.flatMap_def]
      refine congrArg List.flatten (List.map_congr_left (fun p _ => ?_))
      rw [List.map_map]
      exact List.map_congr_left
        (fun w _ => adjustSpeakerLabel_refs_used w.speaker p.1 (a :: b :: t).length)
  · intro hrefs
    subst hrefs
    constructor
    · dsimp only
      rw [foldl_mergeStep_segments, initMergeState, List.nil_append, List.map_flatMap,
        List.flatMap_def, List.flatMap_def]
      refine congrArg List.flatten (List.map_congr_left (fun p _ => ?_))
      rw [List.map_map]
      exact List.map_congr_left
        (fun s _ => adjustSpeakerLabel_no_refs s.speaker p.1 (a :: b :: t).length (by simp))
    · dsimp only
      rw [foldl_mergeStep_words, initMergeState, List.nil_append, List.map_flatMap,
        List.flatMap_def, List.flatMap_def]
      refine congrArg List.flatten (List.map_congr_left (fun p _ => ?_))
      rw [List.map_map]
      exact List.map_congr_left
        (fun w _ => adjustSpeakerLabel_no_refs w.speaker p.1 (a :: b :: t).length (by simp))

/-- The result with the pathological `"Speaker "` label used by the C2
counterexample. -/
def cexSpkR0 : TranscriptResult :=
  { text := "", language := "", segments := [⟨0, 1, "t", some "Speaker ", none⟩],
    wordSegments := [], confidence := 0, processingTime := 0, modelUsed := "",
    metadata := [] }

/-- Second (empty) result of the C2 counterexample. -/
def cexSpkR1 : TranscriptResult :=
  { text := "", language := "", segments := [], wordSegments := [], confidence := 0,
    processingTime := 0, modelUsed := "", metadata := [] }

/-- **C2, counterexample** — merging two results without speaker references
where a segment's label is `"Speaker "` (non-empty): the output label is
`"0-"`, which does **not** match `^\d+-.+$` — the claim's parenthetical
"every non-empty output label matches `^\d+-.+$`" fails. -/
theorem C2_counterexample :
    (MergeResults [some cexSpkR0, some cexSpkR1] [] false).map
        (fun m => m.segments.map (fun s => s.speaker)) = some [some "0-"] ∧
    ¬ ChunkTag "0-" := by
  constructor
  · rw [MergeResults_cons_cons]
    simp only [Option.map_some', Option.some.injEq]
    rw [foldl_mergeStep_segments, initMergeState, List.nil_append]
    simp +decide [List.enum, List.enumFrom, segsOfOpt, adjustSegment, adjustSpeakerLabel,
      strTrimStart, strHasStart, cexSpkR0, cexSpkR1]
  · rintro ⟨ds, rest, heq, hds, -, hrest⟩
    have hlen := congrArg List.length heq
    simp only [List.length_append, List.length_cons, List.length_nil] at hlen
    have hds1 : 1 ≤ ds.length := List.length_pos.mpr hds
    have hrest1 : 1 ≤ rest.length := List.length_pos.mpr hrest
    have : ("0-".toList).length = 2 := by decide
    omega

/-- Witness for `C2_speaker_label_rewrite` at a concrete two-result input. -/
theorem C2_witness :
    ∃ m, MergeResults [some wR0, some wR1] wChunks false = some m ∧
      m.segments.map (fun s => s.speaker) =
        ([some wR0, some wR1].enum.flatMap (fun p =>
          (segsOfOpt p.2).map (fun s => specRewriteLabel p.1 s.speaker))) := by
  obtain ⟨m, h1, -, h2, -, -⟩ :=
    C2_speaker_label_rewrite [some wR0, some wR1] wChunks false (by norm_num)
  exact ⟨m, h1, (h2 rfl).1⟩

end Scriberr
